import Mathlib

/-!
# Verification of the rvimage-py annotation core

Shallow embedding of the algorithmic core of `rvimage-py`
(`rvimage/converters.py`, `rvimage/domain.py`, `rvimage/collection_types.py`)
together with theorems settling the specification's claims.

Masks are embedded as flat row-major lists of natural-number pixel values
(numpy `ravel`/`flatten` order); 2-D indexing is translated to explicit
index arithmetic exactly as the source performs it.
-/

namespace Rvimage

/-! ## RLE codec (`converters.py`)

`mask_to_rle` scans the flattened mask keeping a current run and current
value (initially `0`/`0`), appending the finished run on each value change
and appending the final run at the end.  We embed the scan as `rleScan`:
`rleScan l run cur` is the list of runs still to be produced when `run`
pixels of value `cur` immediately precede the remaining pixels `l`. -/

def rleScan : List ℕ → ℕ → ℕ → List ℕ
  | [], run, _ => [run]
  | v :: rest, run, cur =>
    if v = cur then rleScan rest (run + 1) cur
    else run :: rleScan rest 1 v

/-- The row-major traversal `mask_to_rle` performs: the source reads
`flat_mask[y * mask_w + x]` for `y < mask_h`, `x < mask_w` where
`mask_w, mask_h = mask.shape`, i.e. `mask_w` is the number of rows `h`
and `mask_h` the number of columns `w` of the `(h, w)` array. -/
def rleTraversal (h w : ℕ) (flat : List ℕ) : List ℕ :=
  (List.range w).flatMap (fun y => (List.range h).map (fun x => flat.getD (y * h + x) 0))

/-- `mask_to_rle(mask)` for a mask of shape `(h, w)` flattened row-major
into `flat` (source: `converters.py:23-39`). -/
def mask_to_rle (h w : ℕ) (flat : List ℕ) : List ℕ :=
  rleScan (rleTraversal h w flat) 0 0

/-- numpy slice-assignment `flat[pos : pos + n] = v`: writes `v` into the
positions `pos ≤ i < pos + n`, silently clipped to the list's length. -/
def writeRange (v : ℕ) : List ℕ → ℕ → ℕ → List ℕ
  | [], _, _ => []
  | x :: xs, p + 1, n => x :: writeRange v xs p n
  | _ :: xs, 0, n + 1 => v :: writeRange v xs 0 n
  | x :: xs, 0, 0 => x :: xs

/-- The decode loop of `rle_to_mask` (source: `converters.py:8-20`):
runs at odd positions of the run list are written with the fill value,
runs at even positions only advance the position counter.  Runs are
consumed two at a time (one background, one foreground); a trailing
single run is a background run and writes nothing. -/
def fillRuns (v : ℕ) : List ℕ → ℕ → List ℕ → List ℕ
  | [], _, mask => mask
  | [_], _, mask => mask
  | b :: f :: rest, pos, mask => fillRuns v rest (pos + b + f) (writeRange v mask (pos + b) f)

/-- `rle_to_mask(rle, value, mask)` on an already-allocated flat mask. -/
def rle_to_mask (rle : List ℕ) (value : ℕ) (mask : List ℕ) : List ℕ :=
  fillRuns value rle 0 mask

/-- `rle_to_mask(rle, value, bb)` when a bounding box of shape `(h, w)` is
passed: the source allocates `np.zeros((h, w))` first. -/
def rle_to_mask_of_box (rle : List ℕ) (value : ℕ) (h w : ℕ) : List ℕ :=
  rle_to_mask rle value (List.replicate (h * w) 0)

/-- `Covered par rle pos j` holds when flat position `j` lies in a
foreground run of `rle` replayed from position `pos`; `par` is the parity
of the next run (`true` = the next run is a foreground run; `rle_to_mask`
starts with `par = false`, the leading run being background). -/
def Covered (par : Bool) : List ℕ → ℕ → ℕ → Prop
  | [], _, _ => False
  | r :: rest, pos, j =>
    (par = true ∧ pos ≤ j ∧ j < pos + r) ∨ Covered (!par) rest (pos + r) j

instance instDecidableCovered : ∀ (par : Bool) (rle : List ℕ) (pos j : ℕ),
    Decidable (Covered par rle pos j)
  | _, [], _, _ => decidable_of_iff False (by rw [Covered])
  | par, r :: rest, pos, j =>
    haveI := instDecidableCovered (!par) rest (pos + r) j
    decidable_of_iff ((par = true ∧ pos ≤ j ∧ j < pos + r) ∨ Covered (!par) rest (pos + r) j)
      (by rw [Covered])

/-- The spec's concrete example: a 10×10 mask with rows 0–1, cols 0–4 set
to 1, flattened row-major. -/
def exampleMask10 : List ℕ :=
  List.replicate 5 1 ++ List.replicate 5 0 ++ (List.replicate 5 1 ++ List.replicate 85 0)

/-! ## Geometry (`domain.py`)

Python numbers are embedded exactly: `int` as `ℤ`, `float` as `ℚ`
(the coordinates occurring here are decimal values for which rational
arithmetic is exact).  Where the source's runtime behaviour depends on the
dynamic type of a value (`isinstance(c_min, int)`, `max`/`min` preserving
the type of the chosen operand), the embedding carries the type tag
explicitly in `PyNum`. -/

/-- `BbI`: integer box `{x, y, w, h}` (source: `domain.py:77-96`). -/
structure BbI where
  x : ℤ
  y : ℤ
  w : ℤ
  h : ℤ
deriving DecidableEq

/-- `BbF`: float box `{x, y, w, h}` (source: `domain.py:99-129`). -/
structure BbF where
  x : ℚ
  y : ℚ
  w : ℚ
  h : ℚ
deriving DecidableEq

def BbI.r_min (b : BbI) : ℤ := b.y
def BbI.r_max (b : BbI) : ℤ := b.y + b.h
def BbI.c_min (b : BbI) : ℤ := b.x
def BbI.c_max (b : BbI) : ℤ := b.x + b.w

def BbF.r_min (b : BbF) : ℚ := b.y
def BbF.r_max (b : BbF) : ℚ := b.y + b.h
def BbF.c_min (b : BbF) : ℚ := b.x
def BbF.c_max (b : BbF) : ℚ := b.x + b.w

/-- `_RowColMixin.from_rowcols` at integer type. -/
def BbI.from_rowcols (r_min c_min r_max c_max : ℤ) : BbI :=
  ⟨c_min, r_min, c_max - c_min, r_max - r_min⟩

/-- `_RowColMixin.from_rowcols` at float type. -/
def BbF.from_rowcols (r_min c_min r_max c_max : ℚ) : BbF :=
  ⟨c_min, r_min, c_max - c_min, r_max - r_min⟩

/-- numpy `np.round`: round half to even. -/
def roundEven (q : ℚ) : ℤ :=
  if q - ⌊q⌋ < 1 / 2 then ⌊q⌋
  else if 1 / 2 < q - ⌊q⌋ then ⌊q⌋ + 1
  else if Even ⌊q⌋ then ⌊q⌋ else ⌊q⌋ + 1

/-- `BbF.to_bbi`: each field rounded independently with `np.round`. -/
def BbF.to_bbi (b : BbF) : BbI :=
  ⟨roundEven b.x, roundEven b.y, roundEven b.w, roundEven b.h⟩

/-- `BbF.from_bbi`. -/
def BbF.from_bbi (b : BbI) : BbF := ⟨(b.x : ℚ), (b.y : ℚ), (b.w : ℚ), (b.h : ℚ)⟩

/-- `BbF.scale`. -/
def BbF.scale (b : BbF) (sx sy : ℚ) : BbF := ⟨b.x * sx, b.y * sy, b.w * sx, b.h * sy⟩

/-- A Python number with its runtime type tag (`int` or `float`). -/
inductive PyNum where
  | i : ℤ → PyNum
  | f : ℚ → PyNum
deriving DecidableEq

def PyNum.val : PyNum → ℚ
  | .i n => (n : ℚ)
  | .f q => q

def PyNum.isInt : PyNum → Bool
  | .i _ => true
  | .f _ => false

def PyNum.toZ : PyNum → ℤ
  | .i n => n
  | .f q => ⌊q⌋

/-- Python `max(a, b)`: returns `b` only when it is strictly greater than
`a`; on ties the first argument (with its type) is returned. -/
def pymax (a b : PyNum) : PyNum := if a.val < b.val then b else a

/-- Python `min(a, b)`: returns `b` only when it is strictly smaller than
`a`; on ties the first argument (with its type) is returned. -/
def pymin (a b : PyNum) : PyNum := if b.val < a.val then b else a

/-- A box together with its runtime class (`BbI` or `BbF`). -/
inductive PyBox where
  | int : BbI → PyBox
  | float : BbF → PyBox
deriving DecidableEq

def PyBox.c_minN : PyBox → PyNum
  | .int b => .i b.c_min
  | .float b => .f b.c_min

def PyBox.c_maxN : PyBox → PyNum
  | .int b => .i b.c_max
  | .float b => .f b.c_max

def PyBox.r_minN : PyBox → PyNum
  | .int b => .i b.r_min
  | .float b => .f b.r_min

def PyBox.r_maxN : PyBox → PyNum
  | .int b => .i b.r_max
  | .float b => .f b.r_max

/-- `_ContainsMixin.intersect` (source: `domain.py:57-74`): clips both
boxes' ranges with Python `max`/`min`, returns `None` on empty overlap,
and builds a `BbI` exactly when all four clipped bounds are `int` at
runtime, else a `BbF`. -/
def PyBox.intersect (self other : PyBox) : Option PyBox :=
  let c_min := pymax self.c_minN other.c_minN
  let c_max := pymin self.c_maxN other.c_maxN
  let r_min := pymax self.r_minN other.r_minN
  let r_max := pymin self.r_maxN other.r_maxN
  if c_min.val < c_max.val ∧ r_min.val < r_max.val then
    if c_min.isInt ∧ c_max.isInt ∧ r_min.isInt ∧ r_max.isInt then
      some (.int (BbI.from_rowcols r_min.toZ c_min.toZ r_max.toZ c_max.toZ))
    else
      some (.float (BbF.from_rowcols r_min.val c_min.val r_max.val c_max.val))
  else none

/-! ## Annotation collections (`collection_types.py`) -/

/-- `Point` (source: `domain.py:132-134`). -/
structure Point where
  x : ℚ
  y : ℚ
deriving DecidableEq

/-- `Poly` (source: `domain.py:137-143`). -/
structure Poly where
  points : List Point
  enclosing_bb : BbF
deriving DecidableEq

/-- An element stored in `BboxAnnos.elts`: `BbF | Poly`. -/
inductive BboxElt where
  | bb : BbF → BboxElt
  | poly : Poly → BboxElt
deriving DecidableEq

/-- An element passed to `BboxAnnos.append_elt`: `BbI | BbF | Poly`. -/
inductive BboxEltIn where
  | bi : BbI → BboxEltIn
  | bf : BbF → BboxEltIn
  | poly : Poly → BboxEltIn

/-- Modelled from the spec: the dedup tolerance.  The `equals` method used
by `append_elt` (collection_types.py:135) is not among the provided
sources; spec §4.1 prescribes a per-field absolute-difference comparison
with "default epsilon on the order of 1e-6". -/
def eqEps : ℚ := 1 / 1000000

/-- Modelled from the spec: `equals` on float boxes — per-field
absolute-difference tolerance comparison. -/
def BbF.equals (a b : BbF) : Prop :=
  |a.x - b.x| ≤ eqEps ∧ |a.y - b.y| ≤ eqEps ∧ |a.w - b.w| ≤ eqEps ∧ |a.h - b.h| ≤ eqEps

instance (a b : BbF) : Decidable (a.equals b) := by unfold BbF.equals; infer_instance

/-- Modelled from the spec: `equals` on points. -/
def Point.equals (a b : Point) : Prop := |a.x - b.x| ≤ eqEps ∧ |a.y - b.y| ≤ eqEps

instance (a b : Point) : Decidable (a.equals b) := by unfold Point.equals; infer_instance

/-- Modelled from the spec: `equals` on polygons — pointwise tolerance
comparison of equally long point sequences. -/
def Poly.equals (a b : Poly) : Prop :=
  a.points.length = b.points.length ∧ ∀ p ∈ a.points.zip b.points, p.1.equals p.2

instance (a b : Poly) : Decidable (a.equals b) := by unfold Poly.equals; infer_instance

/-- Modelled from the spec: `equals` across the `BbF | Poly` union — a box
is never geometrically equal to a polygon. -/
def BboxElt.equals : BboxElt → BboxElt → Prop
  | .bb a, .bb b => a.equals b
  | .poly a, .poly b => a.equals b
  | .bb _, .poly _ => False
  | .poly _, .bb _ => False

instance instDecidableBboxEltEquals : ∀ a b : BboxElt, Decidable (a.equals b)
  | .bb a, .bb b => decidable_of_iff (a.equals b) (by rw [BboxElt.equals])
  | .poly a, .poly b => decidable_of_iff (a.equals b) (by rw [BboxElt.equals])
  | .bb _, .poly _ => decidable_of_iff False (by rw [BboxElt.equals])
  | .poly _, .bb _ => decidable_of_iff False (by rw [BboxElt.equals])

/-- `BboxAnnos`: parallel sequences of elements, category indices and
selection flags (source: `collection_types.py:72-75`). -/
structure BboxAnnos where
  elts : List BboxElt
  cat_idxs : List ℤ
  selected_mask : List Bool
deriving DecidableEq

/-- `Canvas` (source: `collection_types.py:212-215`). -/
structure Canvas where
  rle : List ℕ
  bb : BbI
  intensity : ℚ
deriving DecidableEq

/-- `BrushAnnos` (source: `collection_types.py:222-225`). -/
structure BrushAnnos where
  elts : List Canvas
  cat_idxs : List ℤ
  selected_mask : List Bool
deriving DecidableEq

/-- The single failure kind of collection construction: the pydantic
`check_len` validator's assertion (the spec's `ShapeCountMismatch`). -/
inductive PyErr where
  | shapeCountMismatch
deriving DecidableEq

/-- `BboxAnnos` construction: the `check_len` validator
(collection_types.py:85-88) asserts
`len(elts) == len(cat_idxs) == len(selected_mask)` and rejects the value
otherwise. -/
def mkBboxAnnos (elts : List BboxElt) (cat_idxs : List ℤ) (selected_mask : List Bool) :
    Except PyErr BboxAnnos :=
  if elts.length = cat_idxs.length ∧ cat_idxs.length = selected_mask.length then
    .ok ⟨elts, cat_idxs, selected_mask⟩
  else .error .shapeCountMismatch

/-- `BrushAnnos` construction with its `check_len` validator
(collection_types.py:227-230). -/
def mkBrushAnnos (elts : List Canvas) (cat_idxs : List ℤ) (selected_mask : List Bool) :
    Except PyErr BrushAnnos :=
  if elts.length = cat_idxs.length ∧ cat_idxs.length = selected_mask.length then
    .ok ⟨elts, cat_idxs, selected_mask⟩
  else .error .shapeCountMismatch

/-- The `BbI → BbF` promotion `append_elt` performs on its argument
(collection_types.py:132-133). -/
def toBbFElt : BboxEltIn → BboxElt
  | .bi b => .bb (BbF.from_bbi b)
  | .bf b => .bb b
  | .poly p => .poly p

/-- `BboxAnnos.append_elt` (source: `collection_types.py:129-141`): skip
the push when some existing entry at the same category index is
geometrically equal to the new element, else push onto all three parallel
sequences. -/
def BboxAnnos.append_elt (s : BboxAnnos) (eltIn : BboxEltIn) (cat_idx : ℤ)
    (selected : Bool) : BboxAnnos :=
  let elt := toBbFElt eltIn
  if ∃ p ∈ s.elts.zip s.cat_idxs, elt.equals p.1 ∧ cat_idx = p.2 then s
  else ⟨s.elts ++ [elt], s.cat_idxs ++ [cat_idx], s.selected_mask ++ [selected]⟩

/-- `_bbox_elt_to_bb` (source: `collection_types.py:68-69`): an element's
governing box. -/
def bbox_elt_to_bb : BboxElt → BbF
  | .bb b => b
  | .poly p => p.enclosing_bb

/-- `BboxAnnos.bbs` (source: `collection_types.py:171-176`): the governing
boxes of the entries, restricted to the given category indices when a
filter is passed. -/
def BboxAnnos.bbs (s : BboxAnnos) (cat_idx : Option (List ℤ)) : List BbF :=
  (s.elts.zip s.cat_idxs).filterMap (fun ec =>
    match cat_idx with
    | none => some (bbox_elt_to_bb ec.1)
    | some cats => if ec.2 ∈ cats then some (bbox_elt_to_bb ec.1) else none)

/-- The overlap area of a zoom box with a candidate box (zero when the
boxes do not overlap). -/
def overlapArea (zb : BbI) (c : BbF) : ℚ :=
  let ow := min ((zb.x : ℚ) + (zb.w : ℚ)) (c.x + c.w) - max ((zb.x : ℚ)) c.x
  let oh := min ((zb.y : ℚ) + (zb.h : ℚ)) (c.y + c.h) - max ((zb.y : ℚ)) c.y
  if 0 < ow ∧ 0 < oh then ow * oh else 0

/-- Modelled from the spec: `BbI.find_max_overlap_bb` is called at
collection_types.py:198 but is not among the provided sources.  Spec §4.5:
"among boxes yielded by `bounding_boxes`, returns the one with the largest
intersection area with `zoom_box`; returns … the caller's "no match"
sentinel if no candidate overlaps at all."  Modelled as a fold keeping the
first candidate of maximal positive overlap area, `none` when no candidate
overlaps. -/
def BbI.find_max_overlap_bb (zb : BbI) (cands : List BbF) : Option BbF :=
  cands.foldl (fun best c =>
    if 0 < overlapArea zb c then
      match best with
      | none => some c
      | some b => if overlapArea zb b < overlapArea zb c then some c else some b
    else best) none

/-- `BboxAnnos.find_max_overlap_bb_with_zoombox` (source:
`collection_types.py:196-204`): the zoom box itself when the set is empty
or when no candidate overlaps, else the best candidate converted with
`to_bbi`. -/
def BboxAnnos.find_max_overlap_bb_with_zoombox (s : BboxAnnos) (zb : BbI)
    (cat_idxs : List ℤ) : BbI :=
  if 0 < s.elts.length then
    match zb.find_max_overlap_bb (s.bbs (some cat_idxs)) with
    | none => zb
    | some b => b.to_bbi
  else zb

/-! ## Mask filling (`converters.py` / `BboxAnnos.fill_mask`) -/

/-- A 2-D mask of shape `(h, w)` with row-major pixel data. -/
structure Mask2D where
  h : ℕ
  w : ℕ
  data : List ℕ
deriving DecidableEq

/-- numpy `im[bb.slices] = value` on a 2-D array: write `value` at rows
`y ≤ r < y + h` and columns `x ≤ c < x + w` of the box, clipped to the
array bounds (coordinates taken non-negative here). -/
def writeBox (m : Mask2D) (bb : BbI) (v : ℕ) : Mask2D :=
  ⟨m.h, m.w, (List.range (m.h * m.w)).map (fun i =>
    if bb.y ≤ ((i / m.w : ℕ) : ℤ) ∧ ((i / m.w : ℕ) : ℤ) < bb.y + bb.h ∧
        bb.x ≤ ((i % m.w : ℕ) : ℤ) ∧ ((i % m.w : ℕ) : ℤ) < bb.x + bb.w
    then v else m.data.getD i 0)⟩

/-- The filled local copy `fill_bbs_on_mask` computes
(source: `converters.py:42-57`): the function copies `im_mask`, converts
each `BbF` via `scale(w, h).to_bbi()` (`w = h = 1` when
`abs_coords_input`), and writes `value` into the copy's box slices. -/
def fill_bbs_local (bbs : List (BbI ⊕ BbF)) (value : ℕ) (im_mask : Mask2D)
    (abs_coords_input : Bool) : Mask2D :=
  let sh : ℚ × ℚ := if abs_coords_input then (1, 1) else ((im_mask.h : ℚ), (im_mask.w : ℚ))
  bbs.foldl (fun m bb =>
    match bb with
    | .inl bi => writeBox m bi value
    | .inr bf => writeBox m ((bf.scale sh.2 sh.1).to_bbi) value) im_mask

/-- `fill_bbs_on_mask` (source: `converters.py:42-57`): the writes land on
the local copy (`im_mask = im_mask.copy()`) and the function returns
`None`, so the caller's array is never modified.  This definition is the
caller-visible effect of the call: the caller's mask afterwards. -/
def fill_bbs_on_mask (bbs : List (BbI ⊕ BbF)) (value : ℕ) (im_mask : Mask2D)
    (abs_coords_input : Bool) : Mask2D :=
  let _ := fill_bbs_local bbs value im_mask abs_coords_input
  im_mask

/-- `fill_polys_on_mask` (source: `converters.py:60-77`) likewise copies
`im_mask` before rasterising (OpenCV `fillPoly` mutates and returns the
copy); the filled copy is only its return value.  Since
`BboxAnnos.fill_mask` discards that return value, only the caller-visible
effect — the unchanged caller's mask — is modelled. -/
def fill_polys_on_mask_effect (im_mask : Mask2D) : Mask2D := im_mask

/-- `BboxAnnos.fill_mask` (source: `collection_types.py:149-169`): calls
`fill_polys_on_mask` (return value discarded) on the `Poly` entries and
`fill_bbs_on_mask` (returns `None`) on the `BbF` entries of the requested
category; the value of this definition is the caller's mask after the
call. -/
def BboxAnnos.fill_mask (s : BboxAnnos) (im_mask : Mask2D) (cat_idx : ℤ)
    (value : ℕ) : Mask2D :=
  let m1 := fill_polys_on_mask_effect im_mask
  fill_bbs_on_mask
    ((s.elts.zip s.cat_idxs).filterMap (fun ec =>
      match ec.1 with
      | .bb b => if cat_idx = ec.2 then some (.inr b) else none
      | .poly _ => none))
    value m1 true

/-! ## Connected components (`domain.py:164-200`)

`find_ccs` delegates the labelling to `scipy.ndimage.label` (default
4-connectivity) and the tight per-label slices to
`scipy.ndimage.find_objects`; both are external library calls, embedded
here by their documented semantics, with labels assigned in row-major
first-encounter order as the spec prescribes ("first pixel encountered in
row-major order gets label 1, next new region label 2, …").  Reachability
inside the foreground is computed as a bounded iteration of a one-step
neighbour expansion, which saturates to the connectivity class. -/

/-- The pixel of a 2-D mask at `(row, col)`, row-major. -/
def Mask2D.pixel (m : Mask2D) (p : ℕ × ℕ) : ℕ := m.data.getD (p.1 * m.w + p.2) 0

/-- Foreground: an in-bounds pixel with non-zero value. -/
def Mask2D.fg (m : Mask2D) (p : ℕ × ℕ) : Prop :=
  p.1 < m.h ∧ p.2 < m.w ∧ m.pixel p ≠ 0

instance (m : Mask2D) (p : ℕ × ℕ) : Decidable (m.fg p) := by
  unfold Mask2D.fg; infer_instance

/-- 4-connectivity adjacency (the default structuring element of
`scipy.ndimage.label`). -/
def adj4 (p q : ℕ × ℕ) : Prop :=
  (p.1 = q.1 ∧ (p.2 + 1 = q.2 ∨ q.2 + 1 = p.2)) ∨
  (p.2 = q.2 ∧ (p.1 + 1 = q.1 ∨ q.1 + 1 = p.1))

instance (p q : ℕ × ℕ) : Decidable (adj4 p q) := by
  unfold adj4; infer_instance

/-- All cells of the mask in row-major order. -/
def Mask2D.cells (m : Mask2D) : List (ℕ × ℕ) :=
  (List.range m.h).flatMap (fun r => (List.range m.w).map (fun c => (r, c)))

/-- All cells of the mask as a finite set. -/
def Mask2D.cellsF (m : Mask2D) : Finset (ℕ × ℕ) :=
  Finset.range m.h ×ˢ Finset.range m.w

/-- One expansion step of foreground reachability: add every foreground
cell adjacent to the current set. -/
def Mask2D.stepSet (m : Mask2D) (S : Finset (ℕ × ℕ)) : Finset (ℕ × ℕ) :=
  S ∪ m.cellsF.filter (fun q => m.fg q ∧ ∃ p ∈ S, adj4 p q)

/-- The foreground cells reachable from `p` (through foreground, via
4-adjacency): `h * w` expansion steps saturate the class. -/
def Mask2D.reach (m : Mask2D) (p : ℕ × ℕ) : Finset (ℕ × ℕ) :=
  m.stepSet^[m.h * m.w] {p}

/-- `q` belongs to the connectivity class of `p`. -/
def Mask2D.connected (m : Mask2D) (p q : ℕ × ℕ) : Prop := q ∈ m.reach p

instance (m : Mask2D) (p q : ℕ × ℕ) : Decidable (m.connected p q) := by
  unfold Mask2D.connected; infer_instance

/-- A cell is the representative of its class when no earlier cell (in
row-major order) is a connected foreground cell: it is the "first pixel
encountered" of its region. -/
def Mask2D.isRep (m : Mask2D) (p : ℕ × ℕ) : Prop :=
  m.fg p ∧ ∀ q ∈ m.cells, q.1 * m.w + q.2 < p.1 * m.w + p.2 → m.fg q → ¬ m.connected q p

instance (m : Mask2D) (p : ℕ × ℕ) : Decidable (m.isRep p) := by
  unfold Mask2D.isRep; infer_instance

/-- The class representatives in row-major order; region `i` (0-based)
carries label `i + 1`. -/
def Mask2D.reps (m : Mask2D) : List (ℕ × ℕ) :=
  m.cells.filter (fun p => decide (m.isRep p))

/-- The labelled image `scipy.ndimage.label` produces: `0` on background,
`i + 1` on the cells of the `i`-th region in row-major first-encounter
order. -/
def Mask2D.label (m : Mask2D) (p : ℕ × ℕ) : ℕ :=
  if m.fg p then
    match m.reps.findIdx? (fun rp => decide (m.connected rp p)) with
    | some i => i + 1
    | none => 0
  else 0

/-- The cells carrying a given label, row-major. -/
def Mask2D.labelPixels (m : Mask2D) (ℓ : ℕ) : List (ℕ × ℕ) :=
  m.cells.filter (fun p => decide (m.label p = ℓ))

/-- The cropped sub-mask of the `CC` constructor (`domain.py:167-178`):
`im[slices].copy()` with the pixels whose label differs zeroed
(`self.im[im_labeled[slices] != label] = 0`), row-major inside the slice
bounds. -/
def ccData (m : Mask2D) (lab rmin rmax cmin cmax : ℕ) : List ℕ :=
  (List.range ((rmax - rmin) * (cmax - cmin))).map (fun k =>
    if m.label (rmin + k / (cmax - cmin), cmin + k % (cmax - cmin)) = lab then
      m.pixel (rmin + k / (cmax - cmin), cmin + k % (cmax - cmin))
    else 0)

/-- A connected component as built by `CC.__init__` from a
`find_objects` slice: the slice bounds (half-open), the label, and the
cropped sub-mask with non-matching-label pixels zeroed. -/
structure CC where
  rmin : ℕ
  rmax : ℕ
  cmin : ℕ
  cmax : ℕ
  label : ℕ
  im : List ℕ
deriving DecidableEq

/-- Whether a cell of the full mask lies inside the component's bounding
box. -/
def CC.inBB (cc : CC) (p : ℕ × ℕ) : Prop :=
  cc.rmin ≤ p.1 ∧ p.1 < cc.rmax ∧ cc.cmin ≤ p.2 ∧ p.2 < cc.cmax

instance (cc : CC) (p : ℕ × ℕ) : Decidable (cc.inBB p) := by
  unfold CC.inBB; infer_instance

/-- The sub-mask's value at a cell `p` of the full mask (`0` outside the
component's bounding box). -/
def CC.val (cc : CC) (p : ℕ × ℕ) : ℕ :=
  if cc.inBB p then
    cc.im.getD ((cc.cmax - cc.cmin) * (p.1 - cc.rmin) + (p.2 - cc.cmin)) 0
  else 0

/-- The component carrying a given label: the tight slice `find_objects`
yields for that label (half-open bounds from the min/max row and column of
the label's pixels) and the cropped zeroed sub-mask of `CC.__init__`. -/
def Mask2D.ccOfLabel (m : Mask2D) (lab : ℕ) : CC :=
  let ps := m.labelPixels lab
  let rmin := ((ps.map Prod.fst).min?).getD 0
  let rmax := ((ps.map Prod.fst).max?).getD 0 + 1
  let cmin := ((ps.map Prod.snd).min?).getD 0
  let cmax := ((ps.map Prod.snd).max?).getD 0 + 1
  ⟨rmin, rmax, cmin, cmax, lab, ccData m lab rmin rmax cmin cmax⟩

/-- `find_ccs` (source: `domain.py:189-200`): one `CC` per label in label
order. -/
def Mask2D.find_ccs (m : Mask2D) : List CC :=
  (List.range m.reps.length).map (fun i => m.ccOfLabel (i + 1))

/-- The counterexample mask for the component bounding boxes: an L-shaped
region and a single pixel tucked inside the L's bounding box. -/
def exampleMaskCC : Mask2D := ⟨3, 3, [1, 0, 1, 1, 0, 0, 1, 1, 1]⟩

/-! ### Helper lemmas about list indexing -/

theorem getD_append_zero (l1 l2 : List ℕ) (i : ℕ) :
    (l1 ++ l2).getD i 0 = if i < l1.length then l1.getD i 0 else l2.getD (i - l1.length) 0 := by
  induction l1 generalizing i with
  | nil => simp
  | cons x xs ih =>
    cases i with
    | zero => simp
    | succ i =>
      rw [List.cons_append, List.getD_cons_succ, ih i, List.length_cons]
      simp only [Nat.add_lt_add_iff_right, List.getD_cons_succ, Nat.succ_sub_succ]

theorem getD_replicate_zero (n i a : ℕ) :
    (List.replicate n a).getD i 0 = if i < n then a else 0 := by
  induction n generalizing i with
  | zero => simp
  | succ n ih =>
    cases i with
    | zero => simp [List.replicate_succ]
    | succ i =>
      rw [List.replicate_succ, List.getD_cons_succ, ih i]
      simp only [Nat.add_lt_add_iff_right]

/-! ### Structure of `writeRange` and `fillRuns` -/

theorem writeRange_length (v : ℕ) (l : List ℕ) (p n : ℕ) :
    (writeRange v l p n).length = l.length := by
  induction l generalizing p n with
  | nil => rfl
  | cons x xs ih =>
    cases p with
    | succ p => simp [writeRange, ih]
    | zero =>
      cases n with
      | zero => rfl
      | succ n => simp [writeRange, ih]

theorem writeRange_getD (v : ℕ) (l : List ℕ) (p n j : ℕ) :
    (writeRange v l p n).getD j 0 =
      if p ≤ j ∧ j < p + n ∧ j < l.length then v else l.getD j 0 := by
  induction l generalizing p n j with
  | nil => simp [writeRange]
  | cons x xs ih =>
    cases p with
    | succ p =>
      cases j with
      | zero => simp [writeRange]
      | succ j =>
        rw [writeRange, List.getD_cons_succ, List.getD_cons_succ, ih p n j]
        have h1 : (p ≤ j ∧ j < p + n ∧ j < xs.length) ↔
            (p + 1 ≤ j + 1 ∧ j + 1 < p + 1 + n ∧ j + 1 < (x :: xs).length) := by
          simp only [List.length_cons]; omega
        by_cases hc : p ≤ j ∧ j < p + n ∧ j < xs.length
        · rw [if_pos hc, if_pos (h1.mp hc)]
        · rw [if_neg hc, if_neg (fun hx => hc (h1.mpr hx))]
    | zero =>
      cases n with
      | zero =>
        rw [writeRange]
        have h0 : ¬ (0 ≤ j ∧ j < 0 + 0 ∧ j < (x :: xs).length) := by omega
        rw [if_neg h0]
      | succ n =>
        cases j with
        | zero =>
          rw [writeRange, List.getD_cons_zero]
          have h0 : (0 ≤ 0 ∧ 0 < 0 + (n + 1) ∧ 0 < (x :: xs).length) := by
            refine ⟨le_refl 0, by omega, by simp⟩
          rw [if_pos h0]
        | succ j =>
          rw [writeRange, List.getD_cons_succ, List.getD_cons_succ, ih 0 n j]
          have h1 : (0 ≤ j ∧ j < 0 + n ∧ j < xs.length) ↔
              (0 ≤ j + 1 ∧ j + 1 < 0 + (n + 1) ∧ j + 1 < (x :: xs).length) := by
            simp only [List.length_cons]; omega
          by_cases hc : 0 ≤ j ∧ j < 0 + n ∧ j < xs.length
          · rw [if_pos hc, if_pos (h1.mp hc)]
          · rw [if_neg hc, if_neg (fun hx => hc (h1.mpr hx))]

theorem fillRuns_length (v : ℕ) (rle : List ℕ) (pos : ℕ) (mask : List ℕ) :
    (fillRuns v rle pos mask).length = mask.length := by
  induction rle, pos, mask using fillRuns.induct v with
  | case1 _ _ => rfl
  | case2 _ _ _ => rfl
  | case3 b f rest pos mask ih => rw [fillRuns, ih, writeRange_length]

theorem not_Covered_nil (par : Bool) (pos j : ℕ) : ¬ Covered par [] pos j := by
  rw [Covered]; exact fun hf => hf

theorem not_Covered_single (b : ℕ) (pos j : ℕ) : ¬ Covered false [b] pos j := by
  rw [Covered, Covered]
  rintro (⟨hf, _⟩ | hf)
  · exact Bool.false_ne_true hf
  · exact hf

theorem Covered_cons_cons (b f : ℕ) (rest : List ℕ) (pos j : ℕ) :
    Covered false (b :: f :: rest) pos j ↔
      ((pos + b ≤ j ∧ j < pos + b + f) ∨ Covered false rest (pos + b + f) j) := by
  rw [Covered, Covered]
  simp only [Bool.not_false, Bool.not_true, Bool.false_eq_true, false_and, false_or, true_and]

theorem Covered_lt_sum (par : Bool) (rle : List ℕ) (pos j : ℕ) :
    Covered par rle pos j → j < pos + rle.sum := by
  induction rle generalizing par pos with
  | nil => intro h; rw [Covered] at h; exact h.elim
  | cons r rest ih =>
    intro h
    rw [Covered] at h
    rw [List.sum_cons]
    rcases h with ⟨_, _, h2⟩ | h
    · omega
    · have := ih (!par) (pos + r) h
      omega

theorem fillRuns_getD (v : ℕ) (rle : List ℕ) (pos : ℕ) (mask : List ℕ) (j : ℕ) :
    j < mask.length →
    (fillRuns v rle pos mask).getD j 0 = if Covered false rle pos j then v else mask.getD j 0 := by
  induction rle, pos, mask using fillRuns.induct v with
  | case1 pos mask =>
    intro _
    rw [fillRuns, if_neg (not_Covered_nil false pos j)]
  | case2 b pos mask =>
    intro _
    rw [fillRuns, if_neg (not_Covered_single b pos j)]
  | case3 b f rest pos mask ih =>
    intro hj
    have hj' : j < (writeRange v mask (pos + b) f).length := by
      rw [writeRange_length]; exact hj
    rw [fillRuns, ih hj', writeRange_getD]
    by_cases h1 : Covered false rest (pos + b + f) j
    · rw [if_pos h1, if_pos ((Covered_cons_cons b f rest pos j).mpr (Or.inr h1))]
    · rw [if_neg h1]
      by_cases h2 : pos + b ≤ j ∧ j < pos + b + f
      · rw [if_pos ⟨h2.1, h2.2, hj⟩,
          if_pos ((Covered_cons_cons b f rest pos j).mpr (Or.inl h2))]
      · rw [if_neg (fun hx => h2 ⟨hx.1, hx.2.1⟩),
          if_neg (fun hx => ((Covered_cons_cons b f rest pos j).mp hx).elim h2 h1)]

/-! ### Structure of `rleScan` -/

theorem rleScan_sum (l : List ℕ) : ∀ run cur : ℕ, (rleScan l run cur).sum = run + l.length := by
  induction l with
  | nil => intro run cur; simp [rleScan]
  | cons v rest ih =>
    intro run cur
    rw [rleScan]
    by_cases h : v = cur
    · rw [if_pos h, ih (run + 1) cur, List.length_cons]; omega
    · rw [if_neg h, List.sum_cons, ih 1 v, List.length_cons]; omega

theorem rleScan_all_pos (l : List ℕ) : ∀ run cur : ℕ, 1 ≤ run →
    ∀ x ∈ rleScan l run cur, 0 < x := by
  induction l with
  | nil =>
    intro run cur hrun x hx
    rw [rleScan, List.mem_singleton] at hx
    omega
  | cons v rest ih =>
    intro run cur hrun x hx
    rw [rleScan] at hx
    by_cases h : v = cur
    · rw [if_pos h] at hx
      exact ih (run + 1) cur (by omega) x hx
    · rw [if_neg h, List.mem_cons] at hx
      rcases hx with rfl | hx
      · omega
      · exact ih 1 v le_rfl x hx

theorem rleScan_tail_pos (l : List ℕ) : ∀ run cur : ℕ,
    ∀ x ∈ (rleScan l run cur).tail, 0 < x := by
  induction l with
  | nil => intro run cur x hx; rw [rleScan] at hx; simp at hx
  | cons v rest ih =>
    intro run cur x hx
    rw [rleScan] at hx
    by_cases h : v = cur
    · rw [if_pos h] at hx
      exact ih (run + 1) cur x hx
    · rw [if_neg h, List.tail_cons] at hx
      exact rleScan_all_pos rest 1 v le_rfl x hx

theorem rleScan_head_eq_zero (l : List ℕ) : ∀ run cur : ℕ, l ≠ [] →
    ((rleScan l run cur).getD 0 0 = 0 ↔ (run = 0 ∧ l.getD 0 0 ≠ cur)) := by
  induction l with
  | nil => intro _ _ hne; exact absurd rfl hne
  | cons v rest ih =>
    intro run cur _
    rw [rleScan]
    by_cases h : v = cur
    · rw [if_pos h]
      rcases rest with _ | ⟨r2, rest2⟩
      · rw [rleScan]
        simp [h]
      · rw [ih (run + 1) cur (List.cons_ne_nil r2 rest2)]
        simp [h]
    · rw [if_neg h, List.getD_cons_zero, List.getD_cons_zero]
      simp [h]

theorem Covered_rleScan (l : List ℕ) :
    ∀ (run cur pos j : ℕ), (∀ x ∈ l, x = 0 ∨ x = 1) → (cur = 0 ∨ cur = 1) →
    (Covered (cur == 1) (rleScan l run cur) pos j ↔
      (pos ≤ j ∧ j < pos + run + l.length ∧ (List.replicate run cur ++ l).getD (j - pos) 0 = 1)) := by
  induction l with
  | nil =>
    intro run cur pos j _ hcur
    rw [rleScan, Covered]
    have hnil := not_Covered_nil (!(cur == 1)) (pos + run) j
    rw [List.append_nil, getD_replicate_zero]
    rcases hcur with rfl | rfl
    · simp only [List.length_nil]
      constructor
      · rintro (⟨hf, _⟩ | hf)
        · exact absurd hf (by simp)
        · exact absurd hf hnil
      · rintro ⟨_, _, hval⟩
        rw [ite_self] at hval
        exact absurd hval (by decide)
    · constructor
      · rintro (⟨_, h1, h2⟩ | hf)
        · refine ⟨h1, by simpa using h2, ?_⟩
          rw [if_pos (by omega)]
        · exact absurd hf hnil
      · rintro ⟨h1, h2, _⟩
        exact Or.inl ⟨by simp, h1, by simpa using h2⟩
  | cons v rest ih =>
    intro run cur pos j hl hcur
    have hv : v = 0 ∨ v = 1 := hl v (List.mem_cons_self v rest)
    have hl' : ∀ x ∈ rest, x = 0 ∨ x = 1 := fun x hx => hl x (List.mem_cons_of_mem v hx)
    rw [rleScan]
    by_cases h : v = cur
    · rw [if_pos h, ih (run + 1) cur pos j hl' hcur]
      have hlist : List.replicate (run + 1) cur ++ rest =
          List.replicate run cur ++ v :: rest := by
        rw [List.replicate_succ', List.append_assoc, List.singleton_append, h]
      rw [hlist, List.length_cons]
      have harith : pos + (run + 1) + rest.length = pos + run + (rest.length + 1) := by omega
      rw [harith]
    · rw [if_neg h, Covered]
      have hveq : (!(cur == 1)) = (v == 1) := by
        rcases hcur with rfl | rfl <;> rcases hv with rfl | rfl <;> simp_all
      rw [hveq, ih 1 v (pos + run) j hl' hv]
      have hrep1 : List.replicate 1 v ++ rest = v :: rest := by
        rw [List.replicate_one, List.singleton_append]
      rw [hrep1, getD_append_zero, List.length_replicate, getD_replicate_zero,
        List.length_cons, Nat.sub_sub]
      rcases Nat.lt_or_ge j pos with hc | hc
      · constructor
        · rintro (⟨_, h1, _⟩ | ⟨h1, _, _⟩) <;> omega
        · rintro ⟨h1, _, _⟩; omega
      · rcases Nat.lt_or_ge j (pos + run) with hc2 | hc2
        · rw [if_pos (by omega : j - pos < run), if_pos (by omega : j - pos < run)]
          constructor
          · rintro (⟨hpar, _, _⟩ | ⟨h1, _, _⟩)
            · refine ⟨hc, by omega, ?_⟩
              rcases hcur with rfl | rfl
              · exact absurd hpar (by simp)
              · rfl
            · omega
          · rintro ⟨_, _, hval⟩
            rcases hcur with rfl | rfl
            · exact absurd hval (by omega)
            · exact Or.inl ⟨by simp, hc, hc2⟩
        · rw [if_neg (by omega : ¬ j - pos < run)]
          constructor
          · rintro (⟨_, _, h2⟩ | ⟨h1, h2, h3⟩)
            · omega
            · exact ⟨by omega, by omega, h3⟩
          · rintro ⟨h1, h2, h3⟩
            exact Or.inr ⟨hc2, by omega, h3⟩

/-! ### The row-major traversal of `mask_to_rle` visits the flat mask in order -/

theorem range_flatMap_eq (h w : ℕ) (f : ℕ → ℕ) :
    (List.range w).flatMap (fun y => (List.range h).map (fun x => f (y * h + x))) =
      (List.range (w * h)).map f := by
  induction w with
  | zero => simp
  | succ w ihw =>
    rw [List.range_succ, List.flatMap_append, ihw, List.flatMap_cons, List.flatMap_nil,
      List.append_nil, Nat.succ_mul, List.range_add, List.map_append, List.map_map]
    rfl

theorem map_getD_range (flat : List ℕ) (n : ℕ) (hn : flat.length = n) :
    (List.range n).map (fun i => flat.getD i 0) = flat := by
  apply List.ext_getElem
  · simp [hn]
  · intro i h1 h2
    simp only [List.getElem_map, List.getElem_range]
    exact List.getD_eq_getElem flat 0 h2

theorem rleTraversal_eq (h w : ℕ) (flat : List ℕ) (hlen : flat.length = h * w) :
    rleTraversal h w flat = flat := by
  rw [rleTraversal]
  exact (range_flatMap_eq h w (fun i => flat.getD i 0)).trans
    (map_getD_range flat (w * h) (hlen.trans (Nat.mul_comm h w)))

/-! ### The round trip on flat binary masks -/

theorem roundtrip_flat (flat : List ℕ) (hbin : ∀ x ∈ flat, x = 0 ∨ x = 1) :
    rle_to_mask (rleScan flat 0 0) 1 (List.replicate flat.length 0) = flat := by
  have hcov : ∀ j : ℕ,
      Covered false (rleScan flat 0 0) 0 j ↔ (j < flat.length ∧ flat.getD j 0 = 1) := by
    intro j
    have hmain := Covered_rleScan flat 0 0 0 j hbin (Or.inl rfl)
    constructor
    · intro hcv
      have hx := hmain.mp hcv
      rw [List.replicate_zero, List.nil_append, Nat.sub_zero] at hx
      exact ⟨by omega, hx.2.2⟩
    · rintro ⟨h1, h2⟩
      exact hmain.mpr ⟨Nat.zero_le j, by omega,
        by rw [List.replicate_zero, List.nil_append, Nat.sub_zero]; exact h2⟩
  apply List.ext_getElem
  · rw [rle_to_mask, fillRuns_length, List.length_replicate]
  · intro j h1 h2
    rw [← List.getD_eq_getElem _ 0 h1, ← List.getD_eq_getElem _ 0 h2, rle_to_mask,
      fillRuns_getD 1 _ 0 _ j (by simpa using h2), getD_replicate_zero]
    by_cases hone : flat.getD j 0 = 1
    · rw [if_pos ((hcov j).mpr ⟨h2, hone⟩)]
      exact hone.symm
    · rw [if_neg (fun hcv => hone ((hcov j).mp hcv).2), ite_self]
      have hm : flat.getD j 0 ∈ flat := by
        rw [List.getD_eq_getElem flat 0 h2]
        exact List.getElem_mem h2
      rcases hbin _ hm with h0 | h1'
      · exact h0.symm
      · exact absurd h1' hone

/-! ### Claim theorems for the RLE codec -/

/-- **C1**: decoding the run list produced by encoding a binary mask, with
fill value 1 onto a blank mask of the same shape, reproduces the mask; and
the spec's 10×10 example encodes to `[0, 5, 5, 5, 85]`. -/
theorem claim_C1_rle_roundtrip :
    (∀ (h w : ℕ) (flat : List ℕ), (∀ x ∈ flat, x = 0 ∨ x = 1) → flat.length = h * w →
      rle_to_mask_of_box (mask_to_rle h w flat) 1 h w = flat) ∧
    mask_to_rle 10 10 exampleMask10 = [0, 5, 5, 5, 85] := by
  constructor
  · intro h w flat hbin hlen
    rw [mask_to_rle, rleTraversal_eq h w flat hlen, rle_to_mask_of_box, ← hlen]
    exact roundtrip_flat flat hbin
  · decide

/-- Witness for C1: the round trip evaluated on the spec's concrete 10×10 mask. -/
theorem claim_C1_witness :
    rle_to_mask_of_box (mask_to_rle 10 10 exampleMask10) 1 10 10 = exampleMask10 :=
  claim_C1_rle_roundtrip.1 10 10 exampleMask10 (by decide) (by decide)

/-- **C8**: decode writes the fill value exactly at the positions covered by
foreground runs (the runs at odd positions of the run list, captured by
`Covered false`), and every other position keeps its prior value from the
caller-supplied mask. -/
theorem claim_C8_decode_writes_only_foreground :
    ∀ (rle : List ℕ) (value : ℕ) (mask : List ℕ) (j : ℕ), j < mask.length →
      (rle_to_mask rle value mask).getD j 0 =
        if Covered false rle 0 j then value else mask.getD j 0 := by
  intro rle value mask j hj
  rw [rle_to_mask]
  exact fillRuns_getD value rle 0 mask j hj

/-- Witness for C8: decoding `[1, 1]` with fill 5 onto the pre-existing mask
`[7, 8, 9]` overwrites position 1 (covered by the foreground run) with 5. -/
theorem claim_C8_witness :
    (rle_to_mask [1, 1] 5 [7, 8, 9]).getD 1 0 =
      if Covered false [1, 1] 0 1 then 5 else [7, 8, 9].getD 1 0 :=
  claim_C8_decode_writes_only_foreground [1, 1] 5 [7, 8, 9] 1 (by decide)

/-- **C6** counterexample: `rle_to_mask` does not fail on run lists whose
sum exceeds or falls short of the target area.  A run list summing to 200
decoded onto a 2×2 mask silently truncates (filling all four pixels), and a
run list summing to 1 silently leaves the remaining pixels untouched — no
`MalformedRle` error exists anywhere in the decoder. -/
theorem claim_C6_counterexample :
    rle_to_mask [0, 200] 1 (List.replicate 4 0) = [1, 1, 1, 1] ∧
    rle_to_mask [0, 1] 1 (List.replicate 4 0) = [1, 0, 0, 0] := by
  constructor <;> rfl

/-- **C6** amended: decoding never aborts; the result always has exactly the
target mask's size (overlong runs are clipped at the mask's end), and every
position at or past the run list's total sum keeps its prior value (short
run lists pad by leaving the rest untouched). -/
theorem claim_C6_amended_decode_total :
    ∀ (rle : List ℕ) (value : ℕ) (mask : List ℕ),
      (rle_to_mask rle value mask).length = mask.length ∧
      (∀ j, rle.sum ≤ j → j < mask.length →
        (rle_to_mask rle value mask).getD j 0 = mask.getD j 0) := by
  intro rle value mask
  refine ⟨fillRuns_length value rle 0 mask, fun j hsum hj => ?_⟩
  rw [rle_to_mask, fillRuns_getD value rle 0 mask j hj, if_neg]
  intro hcv
  have := Covered_lt_sum false rle 0 j hcv
  omega

/-- Witness for C6 (amended): decoding the undersized run list `[0, 1]` onto
`[5, 6, 7, 8]` keeps size 4 and leaves position 2 at its prior value. -/
theorem claim_C6_witness :
    (rle_to_mask [0, 1] 9 [5, 6, 7, 8]).length = 4 ∧
    (rle_to_mask [0, 1] 9 [5, 6, 7, 8]).getD 2 0 = [5, 6, 7, 8].getD 2 0 :=
  ⟨(claim_C6_amended_decode_total [0, 1] 9 [5, 6, 7, 8]).1,
    (claim_C6_amended_decode_total [0, 1] 9 [5, 6, 7, 8]).2 2 (by decide) (by decide)⟩

/-- **C10**: the encoder's run list sums to the pixel count of the mask, its
first element is zero exactly when the first pixel (row-major) is foreground
(non-zero), and every element after the first is strictly positive. -/
theorem claim_C10_encoder_invariants :
    ∀ (h w : ℕ) (flat : List ℕ), flat.length = h * w → flat ≠ [] →
      (mask_to_rle h w flat).sum = h * w ∧
      ((mask_to_rle h w flat).getD 0 0 = 0 ↔ flat.getD 0 0 ≠ 0) ∧
      (∀ x ∈ (mask_to_rle h w flat).tail, 0 < x) := by
  intro h w flat hlen hne
  rw [mask_to_rle, rleTraversal_eq h w flat hlen]
  refine ⟨?_, ?_, rleScan_tail_pos flat 0 0⟩
  · rw [rleScan_sum]; omega
  · have hh := rleScan_head_eq_zero flat 0 0 hne
    simpa using hh

/-! ### Claim theorems for box intersection -/

/-- **C4** counterexample: the claim "intersect returns an integer box only
when both inputs are integer-valued and a float box otherwise" is false.
An int receiver intersected with a float box of identical coordinates
returns the int box (Python `max`/`min` return their first argument on
ties), and a float receiver whose coordinates are not integer-valued still
yields an int box when the int operand strictly wins every clip. -/
theorem claim_C4_counterexample :
    PyBox.intersect (.int ⟨0, 0, 2, 2⟩) (.float ⟨0, 0, 2, 2⟩) = some (.int ⟨0, 0, 2, 2⟩) ∧
    PyBox.intersect (.float ⟨1/2, 1/2, 10, 10⟩) (.int ⟨1, 1, 2, 2⟩) =
      some (.int ⟨1, 1, 2, 2⟩) := by
  constructor <;>
  · simp only [PyBox.intersect, PyBox.c_minN, PyBox.c_maxN, PyBox.r_minN, PyBox.r_maxN,
      BbF.c_min, BbF.c_max, BbF.r_min, BbF.r_max, BbI.c_min, BbI.c_max, BbI.r_min,
      BbI.r_max, pymax, pymin, PyNum.val, PyNum.isInt, PyNum.toZ,
      BbI.from_rowcols, BbF.from_rowcols]
    norm_num

/-- **C4** amended: intersecting a float box with an int box of identical
coordinates returns a value equal to the float box when the float box is
the receiver, but the int box when the int box is the receiver; so a
mixed-type intersection does not always yield a float box, and an integer
result does not require both inputs to be integer-typed. -/
theorem claim_C4_amended_intersect_type :
    ∀ (a : BbI), 0 < a.w → 0 < a.h →
      PyBox.intersect (.float (BbF.from_bbi a)) (.int a) = some (.float (BbF.from_bbi a)) ∧
      PyBox.intersect (.int a) (.float (BbF.from_bbi a)) = some (.int a) := by
  intro a hw hh
  have hwq : (0 : ℚ) < (a.w : ℚ) := by exact_mod_cast hw
  have hhq : (0 : ℚ) < (a.h : ℚ) := by exact_mod_cast hh
  constructor
  · simp only [PyBox.intersect, PyBox.c_minN, PyBox.c_maxN, PyBox.r_minN, PyBox.r_maxN,
      pymax, pymin, PyNum.val, BbF.from_bbi, BbF.c_min, BbF.c_max, BbF.r_min, BbF.r_max,
      BbI.c_min, BbI.c_max, BbI.r_min, BbI.r_max]
    push_cast
    rw [if_neg (lt_irrefl _), if_neg (lt_irrefl _), if_neg (lt_irrefl _),
      if_neg (lt_irrefl _)]
    simp only [PyNum.val, PyNum.isInt]
    rw [if_pos ⟨by linarith, by linarith⟩, if_neg (by simp)]
    simp only [PyNum.val, BbF.from_rowcols, Option.some.injEq, PyBox.float.injEq,
      BbF.mk.injEq]
    and_intros <;> first | trivial | ring
  · simp only [PyBox.intersect, PyBox.c_minN, PyBox.c_maxN, PyBox.r_minN, PyBox.r_maxN,
      pymax, pymin, PyNum.val, BbF.from_bbi, BbF.c_min, BbF.c_max, BbF.r_min, BbF.r_max,
      BbI.c_min, BbI.c_max, BbI.r_min, BbI.r_max]
    push_cast
    rw [if_neg (lt_irrefl _), if_neg (lt_irrefl _), if_neg (lt_irrefl _),
      if_neg (lt_irrefl _)]
    simp only [PyNum.val, PyNum.isInt]
    rw [if_pos ⟨by push_cast; linarith, by push_cast; linarith⟩, if_pos (by simp)]
    simp only [PyNum.toZ, BbI.from_rowcols, Option.some.injEq, PyBox.int.injEq,
      BbI.mk.injEq]
    have h1 : a.x + a.w - a.x = a.w := by ring
    have h2 : a.y + a.h - a.y = a.h := by ring
    rw [h1, h2]

/-- Witness for C4 (amended): evaluated at the box `(0, 0, 2, 2)`. -/
theorem claim_C4_witness :
    PyBox.intersect (.float (BbF.from_bbi ⟨0, 0, 2, 2⟩)) (.int ⟨0, 0, 2, 2⟩) =
        some (.float (BbF.from_bbi ⟨0, 0, 2, 2⟩)) ∧
    PyBox.intersect (.int ⟨0, 0, 2, 2⟩) (.float (BbF.from_bbi ⟨0, 0, 2, 2⟩)) =
        some (.int ⟨0, 0, 2, 2⟩) :=
  claim_C4_amended_intersect_type ⟨0, 0, 2, 2⟩ (by decide) (by decide)

/-! ### Claim theorems for annotation collections -/

/-- **C7**: constructing a box-set or brush-set with parallel sequences of
unequal lengths fails with `ShapeCountMismatch`, and succeeds exactly when
the three lengths agree. -/
theorem claim_C7_length_invariant :
    ∀ (e : List BboxElt) (ci : List ℤ) (sm : List Bool)
      (e2 : List Canvas) (ci2 : List ℤ) (sm2 : List Bool),
      (mkBboxAnnos e ci sm = .error .shapeCountMismatch ↔
        ¬ (e.length = ci.length ∧ ci.length = sm.length)) ∧
      (mkBboxAnnos e ci sm = .ok ⟨e, ci, sm⟩ ↔
        (e.length = ci.length ∧ ci.length = sm.length)) ∧
      (mkBrushAnnos e2 ci2 sm2 = .error .shapeCountMismatch ↔
        ¬ (e2.length = ci2.length ∧ ci2.length = sm2.length)) ∧
      (mkBrushAnnos e2 ci2 sm2 = .ok ⟨e2, ci2, sm2⟩ ↔
        (e2.length = ci2.length ∧ ci2.length = sm2.length)) := by
  intro e ci sm e2 ci2 sm2
  refine ⟨?_, ?_, ?_, ?_⟩
  · rw [mkBboxAnnos]
    by_cases h : e.length = ci.length ∧ ci.length = sm.length
    · rw [if_pos h]; simp [h]
    · rw [if_neg h]; simp [h]
  · rw [mkBboxAnnos]
    by_cases h : e.length = ci.length ∧ ci.length = sm.length
    · rw [if_pos h]; simp [h]
    · rw [if_neg h]; simp [h]
  · rw [mkBrushAnnos]
    by_cases h : e2.length = ci2.length ∧ ci2.length = sm2.length
    · rw [if_pos h]; simp [h]
    · rw [if_neg h]; simp [h]
  · rw [mkBrushAnnos]
    by_cases h : e2.length = ci2.length ∧ ci2.length = sm2.length
    · rw [if_pos h]; simp [h]
    · rw [if_neg h]; simp [h]

/-- **C2**: appending an element that is geometrically equal (tolerance
`equals`) to an existing entry under the same category index leaves the
collection's length unchanged; appending the same geometry under a
category index carried by no equal entry grows it by exactly one. -/
theorem claim_C2_dedup_append :
    ∀ (s : BboxAnnos) (eltIn : BboxEltIn) (c c' : ℤ) (sel sel' : Bool),
      (∃ p ∈ s.elts.zip s.cat_idxs, (toBbFElt eltIn).equals p.1 ∧ c = p.2) →
      (∀ p ∈ s.elts.zip s.cat_idxs, (toBbFElt eltIn).equals p.1 → c' ≠ p.2) →
      (s.append_elt eltIn c sel).elts.length = s.elts.length ∧
      (s.append_elt eltIn c' sel').elts.length = s.elts.length + 1 := by
  intro s eltIn c c' sel sel' hdup hfresh
  constructor
  · simp only [BboxAnnos.append_elt]
    rw [if_pos hdup]
  · simp only [BboxAnnos.append_elt]
    rw [if_neg]
    · simp
    · rintro ⟨p, hp, heq, hceq⟩
      exact hfresh p hp heq hceq

/-- Witness for C2: a set holding one box under category 0; re-appending
the identical box under category 0 keeps length 1, appending it under
category 1 yields length 2. -/
theorem claim_C2_witness :
    ((BboxAnnos.mk [.bb ⟨0, 0, 1, 1⟩] [0] [false]).append_elt
      (.bf ⟨0, 0, 1, 1⟩) 0 false).elts.length = 1 ∧
    ((BboxAnnos.mk [.bb ⟨0, 0, 1, 1⟩] [0] [false]).append_elt
      (.bf ⟨0, 0, 1, 1⟩) 1 false).elts.length = 2 :=
  claim_C2_dedup_append (BboxAnnos.mk [.bb ⟨0, 0, 1, 1⟩] [0] [false])
    (.bf ⟨0, 0, 1, 1⟩) 0 1 false false
    ⟨(.bb ⟨0, 0, 1, 1⟩, 0), by simp,
      by norm_num [toBbFElt, BboxElt.equals, BbF.equals, eqEps], rfl⟩
    (by
      rintro p hp _
      simp only [List.zip_cons_cons, List.zip_nil_right, List.mem_singleton] at hp
      rw [hp]
      decide)

theorem overlapArea_nonneg (zb : BbI) (c : BbF) : 0 ≤ overlapArea zb c := by
  rw [overlapArea]
  split_ifs with h
  · exact le_of_lt (mul_pos h.1 h.2)
  · exact le_refl 0

/-- The fold inside `find_max_overlap_bb` returns `none` exactly when no
candidate (and no accumulator) overlaps, and otherwise a candidate of
maximal overlap area. -/
theorem fmob_fold (zb : BbI) (l : List BbF) : ∀ (acc : Option BbF),
    (∀ x, acc = some x → 0 < overlapArea zb x) →
    (l.foldl (fun best c =>
        if 0 < overlapArea zb c then
          match best with
          | none => some c
          | some b => if overlapArea zb b < overlapArea zb c then some c else some b
        else best) acc = none →
      acc = none ∧ ∀ c ∈ l, ¬ 0 < overlapArea zb c) ∧
    (∀ b, l.foldl (fun best c =>
        if 0 < overlapArea zb c then
          match best with
          | none => some c
          | some b => if overlapArea zb b < overlapArea zb c then some c else some b
        else best) acc = some b →
      (acc = some b ∨ b ∈ l) ∧ 0 < overlapArea zb b ∧
      (∀ c ∈ l, overlapArea zb c ≤ overlapArea zb b) ∧
      (∀ x, acc = some x → overlapArea zb x ≤ overlapArea zb b)) := by
  induction l with
  | nil =>
    intro acc hacc
    constructor
    · intro h
      exact ⟨h, by simp⟩
    · intro b h
      rw [List.foldl_nil] at h
      exact ⟨Or.inl h, hacc b h, by simp, fun x hx => by rw [hx] at h; cases h; exact le_refl _⟩
  | cons c rest ih =>
    intro acc hacc
    simp only [List.foldl_cons]
    by_cases hpos : 0 < overlapArea zb c
    · rcases acc with _ | b0
      · -- acc = none: the step produces `some c`
        have hstep : (if 0 < overlapArea zb c then
            match (none : Option BbF) with
            | none => some c
            | some b => if overlapArea zb b < overlapArea zb c then some c else some b
            else none) = some c := if_pos hpos
        rw [hstep]
        have ihc := ih (some c) (fun x hx => by cases hx; exact hpos)
        constructor
        · intro hfold
          exact absurd (ihc.1 hfold).1 (by simp)
        · intro b hfold
          rcases ihc.2 b hfold with ⟨hmem, hbpos, hmax, haccle⟩
          refine ⟨?_, hbpos, ?_, fun x hx => Option.noConfusion hx⟩
          · rcases hmem with h | h
            · cases h
              exact Or.inr (List.mem_cons_self c rest)
            · exact Or.inr (List.mem_cons_of_mem c h)
          · intro x hx
            rcases List.mem_cons.mp hx with rfl | hx'
            · exact haccle x rfl
            · exact hmax x hx'
      · -- acc = some b0
        have hb0 : 0 < overlapArea zb b0 := hacc b0 rfl
        by_cases hlt : overlapArea zb b0 < overlapArea zb c
        · have hstep : (if 0 < overlapArea zb c then
              match (some b0 : Option BbF) with
              | none => some c
              | some b => if overlapArea zb b < overlapArea zb c then some c else some b
              else some b0) = some c := by
            rw [if_pos hpos]
            exact if_pos hlt
          rw [hstep]
          have ihc := ih (some c) (fun x hx => by cases hx; exact hpos)
          constructor
          · intro hfold
            exact absurd (ihc.1 hfold).1 (by simp)
          · intro b hfold
            rcases ihc.2 b hfold with ⟨hmem, hbpos, hmax, haccle⟩
            have hcb : overlapArea zb c ≤ overlapArea zb b := haccle c rfl
            refine ⟨?_, hbpos, ?_, ?_⟩
            · rcases hmem with h | h
              · cases h
                exact Or.inr (List.mem_cons_self c rest)
              · exact Or.inr (List.mem_cons_of_mem c h)
            · intro x hx
              rcases List.mem_cons.mp hx with rfl | hx'
              · exact hcb
              · exact hmax x hx'
            · intro x hx
              cases hx
              exact le_trans (le_of_lt hlt) hcb
        · have hstep : (if 0 < overlapArea zb c then
              match (some b0 : Option BbF) with
              | none => some c
              | some b => if overlapArea zb b < overlapArea zb c then some c else some b
              else some b0) = some b0 := by
            rw [if_pos hpos]
            exact if_neg hlt
          rw [hstep]
          have ihb := ih (some b0) (fun x hx => by cases hx; exact hb0)
          constructor
          · intro hfold
            exact absurd (ihb.1 hfold).1 (by simp)
          · intro b hfold
            rcases ihb.2 b hfold with ⟨hmem, hbpos, hmax, haccle⟩
            have hb0b : overlapArea zb b0 ≤ overlapArea zb b := haccle b0 rfl
            refine ⟨?_, hbpos, ?_, ?_⟩
            · rcases hmem with h | h
              · cases h
                exact Or.inl rfl
              · exact Or.inr (List.mem_cons_of_mem c h)
            · intro x hx
              rcases List.mem_cons.mp hx with rfl | hx'
              · exact le_trans (not_lt.mp hlt) hb0b
              · exact hmax x hx'
            · intro x hx
              cases hx
              exact hb0b
    · rw [if_neg hpos]
      have iha := ih acc hacc
      constructor
      · intro hfold
        rcases iha.1 hfold with ⟨ha, hrest⟩
        refine ⟨ha, ?_⟩
        intro x hx
        rcases List.mem_cons.mp hx with rfl | hx'
        · exact hpos
        · exact hrest x hx'
      · intro b hfold
        rcases iha.2 b hfold with ⟨hmem, hbpos, hmax, haccle⟩
        refine ⟨?_, hbpos, ?_, haccle⟩
        · rcases hmem with h | h
          · exact Or.inl h
          · exact Or.inr (List.mem_cons_of_mem c h)
        · intro x hx
          rcases List.mem_cons.mp hx with rfl | hx'
          · have h0 : overlapArea zb x = 0 :=
              le_antisymm (not_lt.mp hpos) (overlapArea_nonneg zb x)
            rw [h0]
            exact le_of_lt hbpos
          · exact hmax x hx'

/-- **C5**: `find_max_overlap_bb_with_zoombox` returns the zoom box when
the set is empty, the zoom box (the no-match sentinel) when no governing
box of the selected categories overlaps the zoom box, and otherwise the
`to_bbi` image of a candidate of maximal overlap area among the candidates
yielded by `bbs`. -/
theorem claim_C5_find_max_overlap :
    ∀ (s : BboxAnnos) (zb : BbI) (cats : List ℤ),
      (s.elts = [] → s.find_max_overlap_bb_with_zoombox zb cats = zb) ∧
      ((∀ c ∈ s.bbs (some cats), overlapArea zb c = 0) →
        s.find_max_overlap_bb_with_zoombox zb cats = zb) ∧
      ((∃ c ∈ s.bbs (some cats), 0 < overlapArea zb c) →
        ∃ b ∈ s.bbs (some cats), s.find_max_overlap_bb_with_zoombox zb cats = b.to_bbi ∧
          ∀ c ∈ s.bbs (some cats), overlapArea zb c ≤ overlapArea zb b) := by
  intro s zb cats
  refine ⟨?_, ?_, ?_⟩
  · intro he
    rw [BboxAnnos.find_max_overlap_bb_with_zoombox, if_neg]
    rw [he]
    simp
  · intro hall
    rw [BboxAnnos.find_max_overlap_bb_with_zoombox]
    by_cases hlen : 0 < s.elts.length
    · rw [if_pos hlen]
      rcases hr : zb.find_max_overlap_bb (s.bbs (some cats)) with _ | b
      · rfl
      · exfalso
        rw [BbI.find_max_overlap_bb] at hr
        have hfold := fmob_fold zb (s.bbs (some cats)) none
          (fun x hx => Option.noConfusion hx)
        rcases hfold.2 b hr with ⟨hmem, hbpos, _, _⟩
        have hbmem : b ∈ s.bbs (some cats) := by
          rcases hmem with h | h
          · exact Option.noConfusion h
          · exact h
        rw [hall b hbmem] at hbpos
        exact lt_irrefl 0 hbpos
    · rw [if_neg hlen]
  · rintro ⟨c0, hc0mem, hc0pos⟩
    have hlen : 0 < s.elts.length := by
      rw [List.length_pos]
      intro hnil
      rw [BboxAnnos.bbs, hnil] at hc0mem
      simp at hc0mem
    rw [BboxAnnos.find_max_overlap_bb_with_zoombox, if_pos hlen]
    rcases hr : zb.find_max_overlap_bb (s.bbs (some cats)) with _ | b
    · exfalso
      rw [BbI.find_max_overlap_bb] at hr
      have hfold := fmob_fold zb (s.bbs (some cats)) none
        (fun x hx => Option.noConfusion hx)
      exact (hfold.1 hr).2 c0 hc0mem hc0pos
    · have hr' := hr
      rw [BbI.find_max_overlap_bb] at hr'
      have hfold := fmob_fold zb (s.bbs (some cats)) none
        (fun x hx => Option.noConfusion hx)
      rcases hfold.2 b hr' with ⟨hmem, _, hmax, _⟩
      have hbmem : b ∈ s.bbs (some cats) := by
        rcases hmem with h | h
        · exact Option.noConfusion h
        · exact h
      exact ⟨b, hbmem, rfl, hmax⟩

/-- Witness for C5: a set holding one 2×2 box at the origin under
category 0, zoomed with the same box: the box itself is returned as the
maximal-overlap candidate. -/
theorem claim_C5_witness :
    ∃ b ∈ (BboxAnnos.mk [.bb ⟨0, 0, 2, 2⟩] [0] [false]).bbs (some [0]),
      (BboxAnnos.mk [.bb ⟨0, 0, 2, 2⟩] [0] [false]).find_max_overlap_bb_with_zoombox
          ⟨0, 0, 2, 2⟩ [0] = b.to_bbi ∧
      ∀ c ∈ (BboxAnnos.mk [.bb ⟨0, 0, 2, 2⟩] [0] [false]).bbs (some [0]),
        overlapArea ⟨0, 0, 2, 2⟩ c ≤ overlapArea ⟨0, 0, 2, 2⟩ b :=
  (claim_C5_find_max_overlap (BboxAnnos.mk [.bb ⟨0, 0, 2, 2⟩] [0] [false])
      ⟨0, 0, 2, 2⟩ [0]).2.2
    ⟨⟨0, 0, 2, 2⟩, by simp [BboxAnnos.bbs, bbox_elt_to_bb],
      by norm_num [overlapArea]⟩

/-! ### Claim theorem for `BboxAnnos.fill_mask` -/

/-- **C3** fails on the code: `BboxAnnos.fill_mask` never modifies the
passed mask.  `fill_bbs_on_mask` writes into a local copy and returns
`None`, and the filled copy `fill_polys_on_mask` returns is discarded by
`fill_mask`, so the caller's mask is returned unchanged — evaluated here at
a set holding one unit box at the origin under category 0 filled onto a
2×2 zero mask, whose pixel (0,0) stays 0 although the discarded local copy
has it set to 1. -/
theorem claim_C3_fill_mask_noop :
    (∀ (s : BboxAnnos) (im_mask : Mask2D) (cat_idx : ℤ) (value : ℕ),
      s.fill_mask im_mask cat_idx value = im_mask) ∧
    ((BboxAnnos.mk [.bb ⟨0, 0, 1, 1⟩] [0] [false]).fill_mask
        ⟨2, 2, List.replicate 4 0⟩ 0 1).data.getD 0 0 = 0 ∧
    (fill_bbs_local [Sum.inl ⟨0, 0, 1, 1⟩] 1 ⟨2, 2, List.replicate 4 0⟩ true).data.getD 0 0
      = 1 := by
  refine ⟨fun s m c v => rfl, rfl, ?_⟩
  decide

/-! ### Connected components: cells, adjacency, reachability -/

theorem adj4_symm {p q : ℕ × ℕ} (h : adj4 p q) : adj4 q p := by
  rcases h with ⟨h1, h2⟩ | ⟨h1, h2⟩
  · exact Or.inl ⟨h1.symm, h2.symm⟩
  · exact Or.inr ⟨h1.symm, h2.symm⟩

theorem Mask2D.mem_cells (m : Mask2D) (x : ℕ × ℕ) :
    x ∈ m.cells ↔ x.1 < m.h ∧ x.2 < m.w := by
  rcases x with ⟨a, b⟩
  simp [Mask2D.cells, List.mem_flatMap, List.mem_map, List.mem_range]

theorem Mask2D.mem_cellsF (m : Mask2D) (x : ℕ × ℕ) :
    x ∈ m.cellsF ↔ x.1 < m.h ∧ x.2 < m.w := by
  rw [Mask2D.cellsF, Finset.mem_product, Finset.mem_range, Finset.mem_range]

theorem Mask2D.cells_nodup (m : Mask2D) : m.cells.Nodup := by
  rw [Mask2D.cells, List.nodup_flatMap]
  constructor
  · intro r _
    exact (List.nodup_range m.w).map (fun c c' hcc => by simpa using hcc)
  · have hlt : (List.range m.h).Pairwise (· < ·) := List.pairwise_lt_range m.h
    refine hlt.imp ?_
    intro r1 r2 hr12 x hx1 hx2
    rcases List.mem_map.mp hx1 with ⟨c1, _, rfl⟩
    rcases List.mem_map.mp hx2 with ⟨c2, _, hx⟩
    have : r2 = r1 := congrArg Prod.fst hx
    omega

theorem Mask2D.subset_stepSet (m : Mask2D) (S : Finset (ℕ × ℕ)) : S ⊆ m.stepSet S :=
  Finset.subset_union_left

theorem Mask2D.stepSet_mono (m : Mask2D) {S T : Finset (ℕ × ℕ)} (h : S ⊆ T) :
    m.stepSet S ⊆ m.stepSet T := by
  intro x hx
  rw [Mask2D.stepSet, Finset.mem_union] at hx ⊢
  rcases hx with hx | hx
  · exact Or.inl (h hx)
  · right
    rw [Finset.mem_filter] at hx ⊢
    rcases hx with ⟨hc, hfg, p, hp, hadj⟩
    exact ⟨hc, hfg, p, h hp, hadj⟩

theorem Mask2D.stepSet_subset_cellsF (m : Mask2D) {S : Finset (ℕ × ℕ)}
    (h : S ⊆ m.cellsF) : m.stepSet S ⊆ m.cellsF := by
  intro x hx
  rw [Mask2D.stepSet, Finset.mem_union] at hx
  rcases hx with hx | hx
  · exact h hx
  · exact (Finset.mem_filter.mp hx).1

theorem Mask2D.subset_iterate (m : Mask2D) (S : Finset (ℕ × ℕ)) (n : ℕ) :
    S ⊆ m.stepSet^[n] S := by
  induction n with
  | zero => simp
  | succ n ih =>
    rw [Function.iterate_succ_apply']
    exact subset_trans ih (m.subset_stepSet _)

theorem Mask2D.iterate_subset_cellsF (m : Mask2D) {S : Finset (ℕ × ℕ)}
    (h : S ⊆ m.cellsF) (n : ℕ) : m.stepSet^[n] S ⊆ m.cellsF := by
  induction n with
  | zero => simpa
  | succ n ih =>
    rw [Function.iterate_succ_apply']
    exact m.stepSet_subset_cellsF ih

theorem Mask2D.iterate_mono_n (m : Mask2D) (S : Finset (ℕ × ℕ)) {n k : ℕ} (h : n ≤ k) :
    m.stepSet^[n] S ⊆ m.stepSet^[k] S := by
  obtain ⟨d, rfl⟩ := Nat.exists_eq_add_of_le h
  have hcomm : n + d = d + n := by omega
  rw [hcomm, Function.iterate_add_apply]
  exact m.subset_iterate _ d

theorem Mask2D.card_iterate_grow (m : Mask2D) (p : ℕ × ℕ) :
    ∀ n, (∀ k, k < n → m.stepSet^[k + 1] {p} ≠ m.stepSet^[k] {p}) →
      n + 1 ≤ (m.stepSet^[n] {p}).card := by
  intro n
  induction n with
  | zero => intro _; simp
  | succ n ih =>
    intro hne
    have h1 := ih (fun k hk => hne k (by omega))
    have hsub : m.stepSet^[n] {p} ⊆ m.stepSet^[n + 1] {p} :=
      m.iterate_mono_n {p} (by omega)
    have hne' : m.stepSet^[n + 1] {p} ≠ m.stepSet^[n] {p} := hne n (by omega)
    have hss : m.stepSet^[n] {p} ⊂ m.stepSet^[n + 1] {p} :=
      Finset.ssubset_iff_subset_ne.mpr ⟨hsub, fun he => hne' he.symm⟩
    have h2 := Finset.card_lt_card hss
    omega

theorem Mask2D.reach_saturated (m : Mask2D) {p : ℕ × ℕ} (hp : m.fg p) :
    m.stepSet (m.reach p) = m.reach p := by
  have hpcell : ({p} : Finset (ℕ × ℕ)) ⊆ m.cellsF := by
    intro x hx
    rw [Finset.mem_singleton] at hx
    subst hx
    exact (m.mem_cellsF x).mpr ⟨hp.1, hp.2.1⟩
  have hcard : ∀ n, (m.stepSet^[n] {p}).card ≤ m.h * m.w := by
    intro n
    have h1 := Finset.card_le_card (m.iterate_subset_cellsF hpcell n)
    have h2 : m.cellsF.card = m.h * m.w := by
      rw [Mask2D.cellsF, Finset.card_product, Finset.card_range, Finset.card_range]
    omega
  have hex : ∃ k, k < m.h * m.w ∧ m.stepSet^[k + 1] {p} = m.stepSet^[k] {p} := by
    by_contra hcon
    push_neg at hcon
    have hg := m.card_iterate_grow p (m.h * m.w) (fun k hk => hcon k hk)
    have hc := hcard (m.h * m.w)
    omega
  obtain ⟨k, hk, hfix⟩ := hex
  have hfix' : m.stepSet (m.stepSet^[k] {p}) = m.stepSet^[k] {p} := by
    rw [← Function.iterate_succ_apply' m.stepSet k {p}]
    exact hfix
  have hreach : m.reach p = m.stepSet^[k] {p} := by
    rw [Mask2D.reach]
    have hkn : m.h * m.w = (m.h * m.w - k) + k := by omega
    rw [hkn, Function.iterate_add_apply]
    exact Function.iterate_fixed hfix' _
  rw [hreach]
  exact hfix'

theorem Mask2D.mem_reach_self (m : Mask2D) (p : ℕ × ℕ) : p ∈ m.reach p :=
  m.subset_iterate {p} _ (Finset.mem_singleton_self p)

theorem Mask2D.iterate_fg (m : Mask2D) {p : ℕ × ℕ} (hp : m.fg p) :
    ∀ n, ∀ x ∈ m.stepSet^[n] {p}, m.fg x := by
  intro n
  induction n with
  | zero =>
    intro x hx
    rw [Function.iterate_zero_apply, Finset.mem_singleton] at hx
    subst hx
    exact hp
  | succ n ih =>
    intro x hx
    rw [Function.iterate_succ_apply', Mask2D.stepSet, Finset.mem_union] at hx
    rcases hx with hx | hx
    · exact ih x hx
    · exact (Finset.mem_filter.mp hx).2.1

theorem Mask2D.reach_fg (m : Mask2D) {p : ℕ × ℕ} (hp : m.fg p) :
    ∀ x ∈ m.reach p, m.fg x :=
  m.iterate_fg hp _

theorem Mask2D.reach_closed (m : Mask2D) {p : ℕ × ℕ} (hp : m.fg p) {q q' : ℕ × ℕ}
    (hq : q ∈ m.reach p) (hq' : m.fg q') (hadj : adj4 q q') : q' ∈ m.reach p := by
  have hmem : q' ∈ m.stepSet (m.reach p) := by
    rw [Mask2D.stepSet, Finset.mem_union]
    right
    rw [Finset.mem_filter]
    exact ⟨(m.mem_cellsF q').mpr ⟨hq'.1, hq'.2.1⟩, hq', q, hq, hadj⟩
  rwa [m.reach_saturated hp] at hmem

theorem Mask2D.reach_trans (m : Mask2D) {p r : ℕ × ℕ} (hp : m.fg p)
    (hr : r ∈ m.reach p) : m.reach r ⊆ m.reach p := by
  have hall : ∀ n, m.stepSet^[n] {r} ⊆ m.reach p := by
    intro n
    induction n with
    | zero =>
      intro x hx
      rw [Function.iterate_zero_apply, Finset.mem_singleton] at hx
      subst hx
      exact hr
    | succ n ih =>
      rw [Function.iterate_succ_apply']
      calc m.stepSet (m.stepSet^[n] {r}) ⊆ m.stepSet (m.reach p) := m.stepSet_mono ih
        _ = m.reach p := m.reach_saturated hp
  exact hall _

theorem Mask2D.reach_symm (m : Mask2D) {p q : ℕ × ℕ} (hp : m.fg p)
    (hq : q ∈ m.reach p) : p ∈ m.reach q := by
  suffices h : ∀ n, ∀ x ∈ m.stepSet^[n] {p}, p ∈ m.reach x from h _ q hq
  intro n
  induction n with
  | zero =>
    intro x hx
    rw [Function.iterate_zero_apply, Finset.mem_singleton] at hx
    subst hx
    exact m.mem_reach_self x
  | succ n ih =>
    intro x hx
    rw [Function.iterate_succ_apply', Mask2D.stepSet, Finset.mem_union] at hx
    rcases hx with hx | hx
    · exact ih x hx
    · rw [Finset.mem_filter] at hx
      rcases hx with ⟨_, hfgx, r, hr, hadj⟩
      have hfgr : m.fg r := m.iterate_fg hp n r hr
      have hpr : p ∈ m.reach r := ih r hr
      have hrx : r ∈ m.reach x :=
        m.reach_closed hfgx (m.mem_reach_self x) hfgr (adj4_symm hadj)
      exact m.reach_trans hfgx hrx hpr

theorem Mask2D.reach_eq_of_mem (m : Mask2D) {p r : ℕ × ℕ} (hp : m.fg p)
    (hr : r ∈ m.reach p) : m.reach r = m.reach p := by
  have hfgr := m.reach_fg hp r hr
  exact subset_antisymm (m.reach_trans hp hr)
    (m.reach_trans hfgr (m.reach_symm hp hr))

/-! ### Representatives and labels -/

theorem Mask2D.idx_inj (m : Mask2D) {p q : ℕ × ℕ} (hp : p.2 < m.w) (hq : q.2 < m.w)
    (h : p.1 * m.w + p.2 = q.1 * m.w + q.2) : p = q := by
  have hw : 0 < m.w := by omega
  have e1 : (p.1 * m.w + p.2) / m.w = p.1 := by
    have hc : p.1 * m.w + p.2 = m.w * p.1 + p.2 := by ring
    rw [hc, Nat.mul_add_div hw, Nat.div_eq_of_lt hp]
    omega
  have e2 : (q.1 * m.w + q.2) / m.w = q.1 := by
    have hc : q.1 * m.w + q.2 = m.w * q.1 + q.2 := by ring
    rw [hc, Nat.mul_add_div hw, Nat.div_eq_of_lt hq]
    omega
  have h1 : p.1 = q.1 := by rw [← e1, ← e2, h]
  have h2 : p.2 = q.2 := by
    have h' := h
    rw [h1] at h'
    omega
  exact Prod.ext h1 h2

theorem Mask2D.mem_reps (m : Mask2D) (r : ℕ × ℕ) :
    r ∈ m.reps ↔ r.1 < m.h ∧ r.2 < m.w ∧ m.isRep r := by
  rw [Mask2D.reps, List.mem_filter, m.mem_cells, decide_eq_true_eq]
  tauto

theorem Mask2D.isRep_iff_min (m : Mask2D) {r : ℕ × ℕ} (hr : m.fg r) :
    m.isRep r ↔ ∀ x ∈ m.reach r, r.1 * m.w + r.2 ≤ x.1 * m.w + x.2 := by
  constructor
  · intro hrep x hx
    by_contra hlt
    push_neg at hlt
    have hfgx := m.reach_fg hr x hx
    have hxc : x ∈ m.cells := (m.mem_cells x).mpr ⟨hfgx.1, hfgx.2.1⟩
    have hconn : m.connected x r := m.reach_symm hr hx
    exact hrep.2 x hxc hlt hfgx hconn
  · intro hmin
    refine ⟨hr, ?_⟩
    intro s hs hlt hfgs hconn
    have hsr : s ∈ m.reach r := m.reach_symm hfgs hconn
    have := hmin s hsr
    omega

theorem Mask2D.exists_rep (m : Mask2D) {p : ℕ × ℕ} (hp : m.fg p) :
    ∃ rp ∈ m.reps, m.connected rp p ∧ m.reach rp = m.reach p := by
  obtain ⟨r, hrmem, hrmin⟩ :=
    Finset.exists_min_image (m.reach p) (fun x => x.1 * m.w + x.2)
      ⟨p, m.mem_reach_self p⟩
  have hfgr := m.reach_fg hp r hrmem
  have hreq : m.reach r = m.reach p := m.reach_eq_of_mem hp hrmem
  have hrep : m.isRep r := by
    rw [m.isRep_iff_min hfgr]
    intro x hx
    rw [hreq] at hx
    exact hrmin x hx
  refine ⟨r, (m.mem_reps r).mpr ⟨hfgr.1, hfgr.2.1, hrep⟩, ?_, hreq⟩
  rw [Mask2D.connected, hreq]
  exact m.mem_reach_self p

theorem Mask2D.rep_unique (m : Mask2D) {p r1 r2 : ℕ × ℕ}
    (h1 : r1 ∈ m.reps) (h2 : r2 ∈ m.reps)
    (hc1 : m.connected r1 p) (hc2 : m.connected r2 p) : r1 = r2 := by
  have hrep1 := ((m.mem_reps r1).mp h1).2.2
  have hrep2 := ((m.mem_reps r2).mp h2).2.2
  have hfg1 := hrep1.1
  have hfg2 := hrep2.1
  have e1 : m.reach p = m.reach r1 := m.reach_eq_of_mem hfg1 hc1
  have e2 : m.reach p = m.reach r2 := m.reach_eq_of_mem hfg2 hc2
  have h12 : r2 ∈ m.reach r1 := by
    rw [← e1, e2]
    exact m.mem_reach_self r2
  have h21 : r1 ∈ m.reach r2 := by
    rw [← e2, e1]
    exact m.mem_reach_self r1
  have hmin1 := (m.isRep_iff_min hfg1).mp hrep1 r2 h12
  have hmin2 := (m.isRep_iff_min hfg2).mp hrep2 r1 h21
  exact m.idx_inj hfg1.2.1 hfg2.2.1 (le_antisymm hmin1 hmin2)

theorem Mask2D.reps_length_two (m : Mask2D) {p q : ℕ × ℕ} (hp : m.fg p) (hq : m.fg q)
    (hpq : ¬ m.connected p q)
    (hcover : ∀ r, m.fg r → m.connected p r ∨ m.connected q r) :
    m.reps.length = 2 := by
  obtain ⟨rp, hrpmem, hrpconn, hrpeq⟩ := m.exists_rep hp
  obtain ⟨rq, hrqmem, hrqconn, hrqeq⟩ := m.exists_rep hq
  have hne : rp ≠ rq := by
    intro he
    subst he
    apply hpq
    rw [Mask2D.connected, ← hrpeq, hrqeq]
    exact m.mem_reach_self q
  have hmem : ∀ x, x ∈ m.reps ↔ x = rp ∨ x = rq := by
    intro x
    constructor
    · intro hx
      have hxrep := ((m.mem_reps x).mp hx).2.2
      have hfgx := hxrep.1
      rcases hcover x hfgx with hcx | hcx
      · left
        refine m.rep_unique hx hrpmem (m.mem_reach_self x) ?_
        rw [Mask2D.connected, hrpeq]
        exact hcx
      · right
        refine m.rep_unique hx hrqmem (m.mem_reach_self x) ?_
        rw [Mask2D.connected, hrqeq]
        exact hcx
    · rintro (rfl | rfl)
      · exact hrpmem
      · exact hrqmem
  have hnodup : m.reps.Nodup := (m.cells_nodup).filter _
  have htf : m.reps.toFinset = {rp, rq} := by
    ext x
    rw [List.mem_toFinset, hmem x, Finset.mem_insert, Finset.mem_singleton]
  calc m.reps.length = m.reps.dedup.length := by rw [List.Nodup.dedup hnodup]
    _ = m.reps.toFinset.card := (List.card_toFinset m.reps).symm
    _ = 2 := by rw [htf]; exact Finset.card_pair hne

/-! ### Bounding boxes and sub-masks of the components -/

theorem foldl_min_spec (t : List ℕ) : ∀ a : ℕ,
    t.foldl min a ≤ a ∧ (t.foldl min a = a ∨ t.foldl min a ∈ t) ∧
      ∀ x ∈ t, t.foldl min a ≤ x := by
  induction t with
  | nil =>
    intro a
    exact ⟨le_refl a, Or.inl rfl, by simp⟩
  | cons b t ih =>
    intro a
    rw [List.foldl_cons]
    rcases ih (min a b) with ⟨h1, h2, h3⟩
    refine ⟨le_trans h1 (min_le_left a b), ?_, ?_⟩
    · rcases h2 with h | h
      · by_cases hab : a ≤ b
        · exact Or.inl (by rw [h, min_eq_left hab])
        · refine Or.inr (by rw [h, min_eq_right (by omega)]; exact List.mem_cons_self b t)
      · exact Or.inr (List.mem_cons_of_mem b h)
    · intro x hx
      rcases List.mem_cons.mp hx with rfl | hx'
      · exact le_trans h1 (min_le_right a x)
      · exact h3 x hx'

theorem foldl_max_spec (t : List ℕ) : ∀ a : ℕ,
    a ≤ t.foldl max a ∧ (t.foldl max a = a ∨ t.foldl max a ∈ t) ∧
      ∀ x ∈ t, x ≤ t.foldl max a := by
  induction t with
  | nil =>
    intro a
    exact ⟨le_refl a, Or.inl rfl, by simp⟩
  | cons b t ih =>
    intro a
    rw [List.foldl_cons]
    rcases ih (max a b) with ⟨h1, h2, h3⟩
    refine ⟨le_trans (le_max_left a b) h1, ?_, ?_⟩
    · rcases h2 with h | h
      · by_cases hab : b ≤ a
        · exact Or.inl (by rw [h, max_eq_left hab])
        · refine Or.inr (by rw [h, max_eq_right (by omega)]; exact List.mem_cons_self b t)
      · exact Or.inr (List.mem_cons_of_mem b h)
    · intro x hx
      rcases List.mem_cons.mp hx with rfl | hx'
      · exact le_trans (le_max_right a x) h1
      · exact h3 x hx'

theorem min?_spec (l : List ℕ) (hne : l ≠ []) :
    ∃ a, l.min? = some a ∧ a ∈ l ∧ ∀ x ∈ l, a ≤ x := by
  rcases l with _ | ⟨h0, t⟩
  · exact absurd rfl hne
  · refine ⟨t.foldl min h0, rfl, ?_, ?_⟩
    · rcases (foldl_min_spec t h0).2.1 with h | h
      · rw [h]
        exact List.mem_cons_self h0 t
      · exact List.mem_cons_of_mem h0 h
    · intro x hx
      rcases List.mem_cons.mp hx with rfl | hx'
      · exact (foldl_min_spec t x).1
      · exact (foldl_min_spec t h0).2.2 x hx'

theorem max?_spec (l : List ℕ) (hne : l ≠ []) :
    ∃ a, l.max? = some a ∧ a ∈ l ∧ ∀ x ∈ l, x ≤ a := by
  rcases l with _ | ⟨h0, t⟩
  · exact absurd rfl hne
  · refine ⟨t.foldl max h0, rfl, ?_, ?_⟩
    · rcases (foldl_max_spec t h0).2.1 with h | h
      · rw [h]
        exact List.mem_cons_self h0 t
      · exact List.mem_cons_of_mem h0 h
    · intro x hx
      rcases List.mem_cons.mp hx with rfl | hx'
      · exact (foldl_max_spec t x).1
      · exact (foldl_max_spec t h0).2.2 x hx'

theorem getD_map_range (g : ℕ → ℕ) (n k : ℕ) (hk : k < n) :
    ((List.range n).map g).getD k 0 = g k := by
  rw [List.getD_eq_getElem _ 0 (by simpa using hk), List.getElem_map, List.getElem_range]

theorem Mask2D.mem_labelPixels (m : Mask2D) (lab : ℕ) (r : ℕ × ℕ) :
    r ∈ m.labelPixels lab ↔ r.1 < m.h ∧ r.2 < m.w ∧ m.label r = lab := by
  rw [Mask2D.labelPixels, List.mem_filter, m.mem_cells, decide_eq_true_eq]
  tauto

theorem Mask2D.ccOfLabel_inBB (m : Mask2D) {lab : ℕ} {r : ℕ × ℕ}
    (hr : r ∈ m.labelPixels lab) : (m.ccOfLabel lab).inBB r := by
  have hne1 : (m.labelPixels lab).map Prod.fst ≠ [] := by
    intro hc
    rw [List.map_eq_nil_iff] at hc
    rw [hc] at hr
    exact absurd hr (List.not_mem_nil r)
  have hne2 : (m.labelPixels lab).map Prod.snd ≠ [] := by
    intro hc
    rw [List.map_eq_nil_iff] at hc
    rw [hc] at hr
    exact absurd hr (List.not_mem_nil r)
  obtain ⟨a1, he1, _, hmin1⟩ := min?_spec _ hne1
  obtain ⟨a2, he2, _, hmax2⟩ := max?_spec _ hne1
  obtain ⟨a3, he3, _, hmin3⟩ := min?_spec _ hne2
  obtain ⟨a4, he4, _, hmax4⟩ := max?_spec _ hne2
  have h1 : a1 ≤ r.1 := hmin1 r.1 (List.mem_map_of_mem Prod.fst hr)
  have h2 : r.1 ≤ a2 := hmax2 r.1 (List.mem_map_of_mem Prod.fst hr)
  have h3 : a3 ≤ r.2 := hmin3 r.2 (List.mem_map_of_mem Prod.snd hr)
  have h4 : r.2 ≤ a4 := hmax4 r.2 (List.mem_map_of_mem Prod.snd hr)
  rw [Mask2D.ccOfLabel]
  rw [CC.inBB]
  rw [he1, he2, he3, he4]
  simp only [Option.getD_some]
  omega

theorem ccVal_aux (m : Mask2D) (lab rmin rmax cmin cmax : ℕ) (r : ℕ × ℕ)
    (h1 : rmin ≤ r.1) (h2 : r.1 < rmax) (h3 : cmin ≤ r.2) (h4 : r.2 < cmax) :
    (ccData m lab rmin rmax cmin cmax).getD
        ((cmax - cmin) * (r.1 - rmin) + (r.2 - cmin)) 0 =
      if m.label r = lab then m.pixel r else 0 := by
  have hC : 0 < cmax - cmin := by omega
  have hkC : r.2 - cmin < cmax - cmin := by omega
  have hk : (cmax - cmin) * (r.1 - rmin) + (r.2 - cmin) <
      (rmax - rmin) * (cmax - cmin) := by
    calc (cmax - cmin) * (r.1 - rmin) + (r.2 - cmin)
        < (cmax - cmin) * (r.1 - rmin) + (cmax - cmin) := by omega
      _ = (cmax - cmin) * (r.1 - rmin + 1) := by ring
      _ ≤ (cmax - cmin) * (rmax - rmin) := Nat.mul_le_mul_left _ (by omega)
      _ = (rmax - rmin) * (cmax - cmin) := by ring
  rw [ccData, getD_map_range _ _ _ hk]
  have hdiv : ((cmax - cmin) * (r.1 - rmin) + (r.2 - cmin)) / (cmax - cmin)
      = r.1 - rmin := by
    rw [Nat.mul_add_div hC, Nat.div_eq_of_lt hkC]
    omega
  have hmod : ((cmax - cmin) * (r.1 - rmin) + (r.2 - cmin)) % (cmax - cmin)
      = r.2 - cmin := by
    rw [Nat.mul_add_mod, Nat.mod_eq_of_lt hkC]
  rw [hdiv, hmod]
  have hr1 : rmin + (r.1 - rmin) = r.1 := by omega
  have hr2 : cmin + (r.2 - cmin) = r.2 := by omega
  rw [hr1, hr2]

theorem Mask2D.ccOfLabel_val (m : Mask2D) (lab : ℕ) (r : ℕ × ℕ) :
    (m.ccOfLabel lab).val r =
      if (m.ccOfLabel lab).inBB r ∧ m.label r = lab then m.pixel r else 0 := by
  by_cases hbb : (m.ccOfLabel lab).inBB r
  · rw [CC.val, if_pos hbb]
    have hbb2 : (m.ccOfLabel lab).rmin ≤ r.1 ∧ r.1 < (m.ccOfLabel lab).rmax ∧
        (m.ccOfLabel lab).cmin ≤ r.2 ∧ r.2 < (m.ccOfLabel lab).cmax := hbb
    have him : (m.ccOfLabel lab).im =
        ccData m lab (m.ccOfLabel lab).rmin (m.ccOfLabel lab).rmax
          (m.ccOfLabel lab).cmin (m.ccOfLabel lab).cmax := rfl
    rw [him, ccVal_aux m lab _ _ _ _ r hbb2.1 hbb2.2.1 hbb2.2.2.1 hbb2.2.2.2]
    by_cases hlab : m.label r = lab
    · rw [if_pos hlab, if_pos ⟨hbb, hlab⟩]
    · rw [if_neg hlab, if_neg (fun hx => hlab hx.2)]
  · rw [CC.val, if_neg hbb, if_neg (fun hx => hbb hx.1)]

theorem Mask2D.label_pair (m : Mask2D) {a b : ℕ × ℕ} (hab : m.reps = [a, b])
    {x : ℕ × ℕ} (hfgx : m.fg x) :
    (m.connected a x → m.label x = 1) ∧
    (¬ m.connected a x → m.connected b x → m.label x = 2) ∧
    (¬ m.connected a x → ¬ m.connected b x → m.label x = 0) := by
  rw [Mask2D.label, if_pos hfgx, hab]
  refine ⟨?_, ?_, ?_⟩
  · intro hca
    simp [List.findIdx?_cons, hca]
  · intro hna hcb
    simp [List.findIdx?_cons, hna, hcb]
  · intro hna hnb
    simp [List.findIdx?_cons, hna, hnb]

/-! ### Claim theorems for connected components -/

/-- **C9** counterexample: the bounding boxes of the two components need
not be disjoint.  The 3×3 mask with an L-shaped region and one extra pixel
at (0,2) has exactly two disjoint (non-connected) foreground blobs, yet
the single pixel's bounding box lies inside the L's bounding box: the cell
(0,2) belongs to both boxes. -/
theorem claim_C9_counterexample :
    exampleMaskCC.fg (0, 0) ∧ exampleMaskCC.fg (0, 2) ∧
    ¬ exampleMaskCC.connected (0, 0) (0, 2) ∧
    (∀ r, exampleMaskCC.fg r →
      exampleMaskCC.connected (0, 0) r ∨ exampleMaskCC.connected (0, 2) r) ∧
    exampleMaskCC.find_ccs.length = 2 ∧
    ∃ cc1 ∈ exampleMaskCC.find_ccs, ∃ cc2 ∈ exampleMaskCC.find_ccs,
      cc1 ≠ cc2 ∧ ∃ x : ℕ × ℕ, cc1.inBB x ∧ cc2.inBB x := by
  refine ⟨by decide, by decide, by decide, ?_, by decide, ?_⟩
  · intro r hr
    have hcell : r ∈ exampleMaskCC.cells :=
      (exampleMaskCC.mem_cells r).mpr ⟨hr.1, hr.2.1⟩
    exact (by decide : ∀ x ∈ exampleMaskCC.cells, exampleMaskCC.fg x →
      exampleMaskCC.connected (0, 0) x ∨ exampleMaskCC.connected (0, 2) x) r hcell hr
  · refine ⟨⟨0, 3, 0, 3, 1, [1, 0, 0, 1, 0, 0, 1, 1, 1]⟩, by decide,
      ⟨0, 1, 2, 3, 2, [1]⟩, by decide, by decide, (0, 2), by decide, by decide⟩

/-- **C9** amended: for a mask with exactly two disjoint (non-connected)
foreground blobs, `find_ccs` returns exactly two components, and the
cropped sub-masks together contain every foreground pixel of the original
mask exactly once (with its original value), every other entry being zero
— non-matching-label pixels are zeroed.  The components' bounding boxes
need not be disjoint. -/
theorem claim_C9_amended_two_components :
    ∀ (m : Mask2D) (p q : ℕ × ℕ), m.fg p → m.fg q → ¬ m.connected p q →
      (∀ r, m.fg r → m.connected p r ∨ m.connected q r) →
      m.find_ccs.length = 2 ∧
      (∀ r, m.fg r →
        (m.find_ccs.countP (fun cc => decide (cc.val r ≠ 0)) = 1 ∧
          ∀ cc ∈ m.find_ccs, cc.val r = m.pixel r ∨ cc.val r = 0)) ∧
      (∀ r, ¬ m.fg r → ∀ cc ∈ m.find_ccs, cc.val r = 0) := by
  intro m p q hp hq hpq hcover
  have hlen2 := m.reps_length_two hp hq hpq hcover
  obtain ⟨a, b, hab⟩ : ∃ a b, m.reps = [a, b] := by
    rcases hr : m.reps with _ | ⟨a, t⟩
    · rw [hr] at hlen2
      simp at hlen2
    · rcases t with _ | ⟨b, t2⟩
      · rw [hr] at hlen2
        simp at hlen2
      · rcases t2 with _ | ⟨c, t3⟩
        · exact ⟨a, b, rfl⟩
        · rw [hr] at hlen2
          simp at hlen2
  have hfind : m.find_ccs = [m.ccOfLabel 1, m.ccOfLabel 2] := by
    rw [Mask2D.find_ccs, hlen2]
    rfl
  have hamem : a ∈ m.reps := by
    rw [hab]
    exact List.mem_cons_self a [b]
  have hbmem : b ∈ m.reps := by
    rw [hab]
    exact List.mem_cons_of_mem a (List.mem_cons_self b [])
  have hone : ∀ x, m.fg x → (m.connected a x ∨ m.connected b x) ∧
      ¬ (m.connected a x ∧ m.connected b x) := by
    intro x hx
    constructor
    · obtain ⟨rx, hrxmem, hrxconn, _⟩ := m.exists_rep hx
      rw [hab] at hrxmem
      rcases List.mem_cons.mp hrxmem with rfl | hr2
      · exact Or.inl hrxconn
      · rcases List.mem_cons.mp hr2 with rfl | hr3
        · exact Or.inr hrxconn
        · exact absurd hr3 (List.not_mem_nil rx)
    · rintro ⟨hca, hcb⟩
      have heq : a = b := m.rep_unique hamem hbmem hca hcb
      have hnodup : m.reps.Nodup := m.cells_nodup.filter _
      rw [hab] at hnodup
      rcases List.nodup_cons.mp hnodup with ⟨hna, _⟩
      exact hna (by rw [heq]; exact List.mem_cons_self b [])
  refine ⟨by rw [hfind]; rfl, ?_, ?_⟩
  · intro r hr
    have hlabel := m.label_pair hab hr
    have hpix : m.pixel r ≠ 0 := hr.2.2
    rcases (hone r hr).1 with hca | hcb
    · have hl1 : m.label r = 1 := hlabel.1 hca
      have hrmem : r ∈ m.labelPixels 1 := (m.mem_labelPixels 1 r).mpr ⟨hr.1, hr.2.1, hl1⟩
      have hbb1 := m.ccOfLabel_inBB hrmem
      have hv1 : (m.ccOfLabel 1).val r = m.pixel r := by
        rw [m.ccOfLabel_val, if_pos ⟨hbb1, hl1⟩]
      have hv2 : (m.ccOfLabel 2).val r = 0 := by
        rw [m.ccOfLabel_val, if_neg (fun hx => by have h2 := hx.2; omega)]
      constructor
      · rw [hfind, List.countP_cons, List.countP_cons, List.countP_nil]
        simp [hv1, hv2, hpix]
      · intro cc hcc
        rw [hfind] at hcc
        rcases List.mem_cons.mp hcc with rfl | hcc2
        · exact Or.inl hv1
        · rcases List.mem_cons.mp hcc2 with rfl | hcc3
          · exact Or.inr hv2
          · exact absurd hcc3 (List.not_mem_nil cc)
    · have hna : ¬ m.connected a r := fun hca => (hone r hr).2 ⟨hca, hcb⟩
      have hl2 : m.label r = 2 := hlabel.2.1 hna hcb
      have hrmem : r ∈ m.labelPixels 2 := (m.mem_labelPixels 2 r).mpr ⟨hr.1, hr.2.1, hl2⟩
      have hbb2 := m.ccOfLabel_inBB hrmem
      have hv2 : (m.ccOfLabel 2).val r = m.pixel r := by
        rw [m.ccOfLabel_val, if_pos ⟨hbb2, hl2⟩]
      have hv1 : (m.ccOfLabel 1).val r = 0 := by
        rw [m.ccOfLabel_val, if_neg (fun hx => by have h2 := hx.2; omega)]
      constructor
      · rw [hfind, List.countP_cons, List.countP_cons, List.countP_nil]
        simp [hv1, hv2, hpix]
      · intro cc hcc
        rw [hfind] at hcc
        rcases List.mem_cons.mp hcc with rfl | hcc2
        · exact Or.inr hv1
        · rcases List.mem_cons.mp hcc2 with rfl | hcc3
          · exact Or.inl hv2
          · exact absurd hcc3 (List.not_mem_nil cc)
  · intro r hnr cc hcc
    have hl0 : m.label r = 0 := by rw [Mask2D.label, if_neg hnr]
    rw [hfind] at hcc
    rcases List.mem_cons.mp hcc with rfl | hcc2
    · rw [m.ccOfLabel_val, if_neg (fun hx => by have h2 := hx.2; omega)]
    · rcases List.mem_cons.mp hcc2 with rfl | hcc3
      · rw [m.ccOfLabel_val, if_neg (fun hx => by have h2 := hx.2; omega)]
      · exact absurd hcc3 (List.not_mem_nil cc)

/-- Witness for C9 (amended): the amended conclusion evaluated on the
concrete two-blob counterexample mask. -/
theorem claim_C9_witness :
    exampleMaskCC.find_ccs.length = 2 ∧
    (∀ r, exampleMaskCC.fg r →
      (exampleMaskCC.find_ccs.countP (fun cc => decide (cc.val r ≠ 0)) = 1 ∧
        ∀ cc ∈ exampleMaskCC.find_ccs,
          cc.val r = exampleMaskCC.pixel r ∨ cc.val r = 0)) ∧
    (∀ r, ¬ exampleMaskCC.fg r → ∀ cc ∈ exampleMaskCC.find_ccs, cc.val r = 0) :=
  claim_C9_amended_two_components exampleMaskCC (0, 0) (0, 2)
    (by decide) (by decide) (by decide)
    (fun r hr =>
      (by decide : ∀ x ∈ exampleMaskCC.cells, exampleMaskCC.fg x →
          exampleMaskCC.connected (0, 0) x ∨ exampleMaskCC.connected (0, 2) x)
        r ((exampleMaskCC.mem_cells r).mpr ⟨hr.1, hr.2.1⟩) hr)

/-- Witness for C10: the 1×2 mask `[1, 0]` (foreground first pixel). -/
theorem claim_C10_witness :
    (mask_to_rle 1 2 [1, 0]).sum = 1 * 2 ∧
    ((mask_to_rle 1 2 [1, 0]).getD 0 0 = 0 ↔ [1, 0].getD 0 0 ≠ 0) ∧
    (∀ x ∈ (mask_to_rle 1 2 [1, 0]).tail, 0 < x) :=
  claim_C10_encoder_invariants 1 2 [1, 0] (by decide) (by decide)

end Rvimage
